import Mathlib

/-!
Verification development for the `currencies` service (SpeedSX/currencies).

The development shallowly embeds the storage and synchronization engine of
`src/db.rs` together with the data model of the `currencies` module
(`Currency`, `Date`) that the engine manipulates.  Machine integers are
modelled as `Int`/`Nat` with explicit `% 2 ^ 64` where Rust overflow
semantics matter (the `i64::to_be_bytes` two's-complement encoding), the
`sled` ordered key/value store is modelled as an association list of
byte-string keys, and fallible Rust functions returning `Result` are
modelled with an explicit `Res` type.
-/

set_option maxHeartbeats 1000000
set_option maxRecDepth 4000

namespace Currencies

/-! ## Calendar arithmetic (model of `chrono::NaiveDate`)

`date_as_key` in `src/db.rs` parses the date string with
`NaiveDate::from_str`, takes the midnight UTC timestamp
(`and_hms(0,0,0).timestamp()`) and emits its `i64` big-endian bytes.  The
proleptic-Gregorian day count below is the standard (mathematically equal)
formulation of the count chrono computes: `daysBeforeYear y` is the number
of days from 0001-01-01 to the start of year `y`, using floored division
(Lean's `Int` `/` is floored for positive divisors). -/

/-- Proleptic Gregorian leap-year rule (astronomical year numbering, as in
chrono): divisible by 4 and not by 100, or divisible by 400. -/
def IsLeap (y : Int) : Prop := (y % 4 = 0 ∧ y % 100 ≠ 0) ∨ y % 400 = 0

instance (y : Int) : Decidable (IsLeap y) := by
  unfold IsLeap
  infer_instance

/-- Number of days of month `m` (1–12) of year `y`. -/
def daysInMonth (y m : Int) : Int :=
  if m = 2 then 28 + (if IsLeap y then 1 else 0)
  else if m = 4 ∨ m = 6 ∨ m = 9 ∨ m = 11 then 30
  else 31

/-- Cumulative number of days of year `y` strictly before month `m`. -/
def daysBeforeMonth (y m : Int) : Int :=
  (if 3 ≤ m then (if IsLeap y then 1 else 0) else 0) +
  (if m ≤ 1 then 0 else if m ≤ 2 then 31 else if m ≤ 3 then 59
   else if m ≤ 4 then 90 else if m ≤ 5 then 120 else if m ≤ 6 then 151
   else if m ≤ 7 then 181 else if m ≤ 8 then 212 else if m ≤ 9 then 243
   else if m ≤ 10 then 273 else if m ≤ 11 then 304 else 334)

/-- Number of days from 0001-01-01 to the first day of year `y`
(proleptic Gregorian). -/
def daysBeforeYear (y : Int) : Int :=
  365 * (y - 1) + (y - 1) / 4 - (y - 1) / 100 + (y - 1) / 400

/-- A parsed calendar date, the model of a `chrono::NaiveDate` value. -/
structure CalDate where
  year : Int
  month : Int
  day : Int
deriving DecidableEq, Repr

/-- Calendar validity as checked by chrono: month and day in range and the
year within chrono's representable range (`MIN_YEAR = -262144`,
`MAX_YEAR = 262143`); `NaiveDate::from_str` rejects anything outside. -/
def CalDate.validB (d : CalDate) : Bool :=
  decide (1 ≤ d.month) && decide (d.month ≤ 12) &&
  decide (1 ≤ d.day) && decide (d.day ≤ daysInMonth d.year d.month) &&
  decide (-262144 ≤ d.year) && decide (d.year ≤ 262143)

/-- Day number of a date counted from 0001-01-01 (0-based rata die). -/
def toRataDie (d : CalDate) : Int :=
  daysBeforeYear d.year + daysBeforeMonth d.year d.month + (d.day - 1)

/-- Rata die of the Unix epoch 1970-01-01. -/
def epochRataDie : Int := toRataDie ⟨1970, 1, 1⟩

/-- Chronological strict order on calendar dates (the `Ord` order of
`chrono::NaiveDate`): lexicographic on (year, month, day). -/
def calLtB (a b : CalDate) : Bool :=
  decide (a.year < b.year) ||
  (decide (a.year = b.year) &&
    (decide (a.month < b.month) ||
      (decide (a.month = b.month) && decide (a.day < b.day))))

/-! ## Parsing (model of `NaiveDate::from_str`)

chrono parses `%Y-%m-%d`: an optionally signed year number, then literal
dashes and month and day digit runs, validated against the calendar.  The
model requires exactly this shape with no embedded whitespace (chrono also
tolerates whitespace around the dashes) and does not cap the digit-run
lengths (chrono caps month and day at two digits); both deviations only
change which strings are accepted, never the date a accepted string
denotes. -/

/-- Value of a digit run, most significant first. -/
def digitsToNat (ds : List Char) : Nat :=
  ds.foldl (fun a c => 10 * a + (c.toNat - 48)) 0

/-- Strip the optional sign of the year field, returning whether the year
is negated and the remaining characters. -/
def parseSign : List Char → Bool × List Char
  | '-' :: rest => (true, rest)
  | '+' :: rest => (false, rest)
  | cs => (false, cs)

/-- Final validation step of the parse: build the date and check it
against the calendar, as chrono's field validation does. -/
def mkValidDate (y m d : Int) : Option CalDate :=
  if CalDate.validB ⟨y, m, d⟩ then some ⟨y, m, d⟩ else none

/-- Parse a date string in `%Y-%m-%d` form, the model of
`NaiveDate::from_str`; `none` models the `Err` of a failed parse. -/
def parseDate (s : String) : Option CalDate :=
  match ((parseSign s.toList).2.dropWhile Char.isDigit : List Char) with
  | '-' :: cs2 =>
    (match (cs2.dropWhile Char.isDigit : List Char) with
     | '-' :: cs4 =>
       (if ((parseSign s.toList).2.takeWhile Char.isDigit).isEmpty ∨
           (cs2.takeWhile Char.isDigit).isEmpty ∨
           (cs4.takeWhile Char.isDigit).isEmpty ∨
           cs4.dropWhile Char.isDigit ≠ [] then none
        else
          mkValidDate
            (if (parseSign s.toList).1 then
              -(digitsToNat ((parseSign s.toList).2.takeWhile Char.isDigit) : Int)
             else (digitsToNat ((parseSign s.toList).2.takeWhile Char.isDigit) : Int))
            (digitsToNat (cs2.takeWhile Char.isDigit))
            (digitsToNat (cs4.takeWhile Char.isDigit)))
     | _ => none)
  | _ => none

/-! ## Byte-string keys -/

/-- Big-endian base-256 digits of `n`, `k` bytes wide (`n < 256 ^ k`). -/
def beBytes : Nat → Nat → List Nat
  | 0, _ => []
  | k + 1, n => n / 256 ^ k :: beBytes k (n % 256 ^ k)

/-- Little-endian base-256 digits of `n`, `k` bytes wide. -/
def leBytes : Nat → Nat → List Nat
  | 0, _ => []
  | k + 1, n => n % 256 :: leBytes k (n / 256)

/-- The 8 bytes of `i64::to_be_bytes`: the two's-complement value reduced
mod `2 ^ 64`, written big-endian. -/
def i64ToBeBytes (t : Int) : List Nat := beBytes 8 (t % 2 ^ 64).toNat

/-- Key of a parsed date: the big-endian bytes of its midnight UTC Unix
timestamp, exactly what `date_as_key` produces after a successful parse. -/
def encodeDate (d : CalDate) : List Nat :=
  i64ToBeBytes (86400 * (toRataDie d - epochRataDie))

/-- Model of `date_as_key` (src/db.rs lines 15–22): parse the string as a
`NaiveDate` and emit the 8 big-endian bytes of the midnight timestamp;
`none` models the propagated parse error. -/
def date_as_key (s : String) : Option (List Nat) :=
  (parseDate s).map encodeDate

/-- Strict lexicographic order on byte strings, as `sled` and Rust `[u8]`
compare keys (a proper prefix sorts first). -/
def bytesLtB : List Nat → List Nat → Bool
  | [], [] => false
  | [], _ :: _ => true
  | _ :: _, [] => false
  | a :: as, b :: bs => decide (a < b) || (decide (a = b) && bytesLtB as bs)

/-- Reflexive lexicographic order on byte strings. -/
def bytesLeB (a b : List Nat) : Bool := bytesLtB a b || decide (a = b)

/-- The literal key `b"current"` (ASCII bytes of `current`). -/
def currentKeyBytes : List Nat := [99, 117, 114, 114, 101, 110, 116]

/-- bincode (v1, default configuration) serialization of a `Vec<u8>`: an
8-byte little-endian `u64` length prefix followed by the raw bytes.  This
is what `Db::put` persists when handed the `Vec<u8>` produced by
`date_as_key`. -/
def bincodeVecU8 (v : List Nat) : List Nat := leBytes 8 v.length ++ v

/-! ## Data model (`currencies::Currency`, `currencies::Date`)

Modelled from the spec: the `currencies` module itself is not under
`src/`; §3 of the spec gives the record shapes (a named rate entry, and a
snapshot of one day's rates) and §4.4 step 1 says the engine extracts a
snapshot's calendar date from its date string (`value_as_date`).  The
`f64` rate field is modelled as `Rat`; the engine never computes with
rates, it only stores the literal `1.0`, which `Rat` represents exactly. -/

/-- Modelled from the spec: one currency entry `{ name, rate }` of the
missing `currencies::Currency` struct. -/
structure Currency where
  name : String
  rate : Rat
deriving DecidableEq, Repr

/-- Modelled from the spec: one daily snapshot `{ value, currencies }` of
the missing `currencies::Date` struct. -/
structure Date where
  value : String
  currencies : List Currency
deriving DecidableEq, Repr

/-- Modelled from the spec: `Date::value_as_date`, parsing the snapshot's
date string as a `NaiveDate`. -/
def Date.value_as_date (d : Date) : Option CalDate := parseDate d.value

/-- The EUR base entry appended by the engine before persisting. -/
def eurBase : Currency := { name := "EUR", rate := 1 }

/-- Append the EUR base entry, as both `bootstrap_new` and `update` do
(`date.currencies.push(Currency { name: "EUR", rate: 1.0 })`). -/
def withEUR (d : Date) : Date :=
  { d with currencies := d.currencies ++ [eurBase] }

/-- The entries of a snapshot named `EUR`. -/
def eurEntries (d : Date) : List Currency :=
  d.currencies.filter fun c => decide (c.name = "EUR")

/-! ## The sled store -/

/-- A stored value.  Values in sled are opaque bincode blobs; the engine
only ever stores two shapes, so the model keeps them tagged:
`snap d` stands for the bincode serialization of a `Date` record and
`keyBlob k` for the bincode serialization of a `Vec<u8>` holding a key
(whose concrete bytes are `bincodeVecU8 k`). -/
inductive StoreVal where
  | snap (d : Date)
  | keyBlob (k : List Nat)
deriving DecidableEq, Repr

/-- The ordered key/value store: an association list sorted by
`bytesLtB` on keys, the model of the sled tree behind `Db`. -/
abbrev Store : Type := List (List Nat × StoreVal)

/-- Point lookup (`sled::Db::get`). -/
def sledGet (k : List Nat) : Store → Option StoreVal
  | [] => none
  | (k1, v) :: rest => if k = k1 then some v else sledGet k rest

/-- Ordered upsert (`sled::Db::insert`): keeps the list sorted and
replaces the value of an existing key. -/
def sledInsert (k : List Nat) (v : StoreVal) : Store → Store
  | [] => [(k, v)]
  | (k1, v1) :: rest =>
    if bytesLtB k k1 then (k, v) :: (k1, v1) :: rest
    else if k = k1 then (k, v) :: rest
    else (k1, v1) :: sledInsert k v rest

/-- Errors of the engine, the distinct `anyhow`/`Error` failure sites of
`src/db.rs`. -/
inductive Err where
  | parse
  | empty
  | noCurrent
  | danglingCurrent
  | decode
  | regression
deriving DecidableEq, Repr

/-- Result of a fallible engine operation (Rust `Result<T, Error>`). -/
inductive Res (α : Type) where
  | ok (a : α)
  | err (e : Err)
deriving DecidableEq, Repr

/-! ## Read path -/

/-- Model of `Db::get_current_rates` (src/db.rs lines 76–87): read the
`current` entry as a `Vec<u8>` key, then read and decode the snapshot it
points to.  A `snap` blob under `current` or a `keyBlob` under a date key
would fail bincode deserialization at the requested type; neither shape is
ever written by the engine. -/
def get_current_rates (s : Store) : Res Date :=
  match sledGet currentKeyBytes s with
  | none => .err .noCurrent
  | some (StoreVal.snap _) => .err .decode
  | some (StoreVal.keyBlob k) =>
    match sledGet k s with
    | none => .err .danglingCurrent
    | some (StoreVal.snap d) => .ok d
    | some (StoreVal.keyBlob _) => .err .decode

/-- Whether a key lies in the inclusive scan range `lo ..= hi`. -/
def inRangeB (lo hi k : List Nat) : Bool := bytesLeB lo k && bytesLeB k hi

/-- Decode every value of a scanned range as a `Date`
(`bincode::deserialize::<Date>` inside `get_range_rates`); the first
undecodable blob aborts the whole collection, as
`collect::<Result<Vec<Date>, _>>` does. -/
def rangeDecode : List (List Nat × StoreVal) → Res (List Date)
  | [] => .ok []
  | (_, StoreVal.snap d) :: rest =>
    match rangeDecode rest with
    | .ok ds => .ok (d :: ds)
    | .err e => .err e
  | (_, StoreVal.keyBlob _) :: _ => .err .decode

/-- Model of `Db::get_range_rates` (src/db.rs lines 96–116): encode both
bounds (`NaiveDate::to_string` round-trips through `date_as_key`, i.e.
`encodeDate`), scan the inclusive key range in store order and decode
every value. -/
def get_range_rates (startAt endAt : CalDate) (s : Store) : Res (List Date) :=
  rangeDecode (s.filter fun kv => inRangeB (encodeDate startAt) (encodeDate endAt) kv.1)

/-! ## Bootstrap (`Db::bootstrap_new`, src/db.rs lines 39–67) -/

/-- The snapshot-writing loop of `bootstrap_new` (lines 55–63): for each
fetched snapshot, key its date, append the EUR base and `put` it; a
failing `date_as_key` aborts the loop, leaving the writes made so far. -/
def bootLoop : List Date → Store → Res Unit × Store
  | [], s => (.ok (), s)
  | d :: rest, s =>
    match date_as_key d.value with
    | none => (.err .parse, s)
    | some k => bootLoop rest (sledInsert k (StoreVal.snap (withEUR d)) s)

/-- Model of `Db::bootstrap_new`: fetch the historical feed (the `hist`
argument), fail on an empty feed, `put` the `current` pointer for the
first (most recent) snapshot, then write every snapshot.  The pair also
carries the store state reached when a step fails, since earlier `put`s
are already applied. -/
def bootstrap_new (hist : List Date) : Res Unit × Store :=
  match hist.head? with
  | none => (.err .empty, [])
  | some first =>
    match date_as_key first.value with
    | none => (.err .parse, [])
    | some ck =>
      bootLoop hist (sledInsert currentKeyBytes (StoreVal.keyBlob ck) [])

/-- Model of `Db::init` (src/db.rs lines 30–37): decide between opening
and bootstrapping solely on whether the path exists; opening performs no
reads or validation of the existing contents. -/
def init (pathExists : Bool) (stored : Store) (hist : List Date) : Res Unit × Store :=
  if pathExists then (.ok (), stored) else bootstrap_new hist

/-! ## Incremental update (`Db::update`, src/db.rs lines 146–187) -/

/-- Which remote feed the `Ordering::Greater` branch fetches. -/
inductive FetchChoice where
  | hist
  | last90
  | daily
deriving DecidableEq, Repr

/-- The staleness dispatch of `update` (lines 158–164) on the elapsed
whole-day gap `d`: `d if d > Duration::days(90)` fetches the historical
feed, `d if d < Duration::days(90) && d > Duration::days(1)` fetches the
last-90-days feed, and the fall-through `_` reuses the already fetched
daily snapshot. -/
def updateFetchChoice (d : Int) : FetchChoice :=
  if 90 < d then .hist
  else if d < 90 ∧ 1 < d then .last90
  else .daily

/-- The results the three remote fetch operations would return during one
`update` call; the remote feed is an external collaborator, so its
responses are inputs of the model. -/
structure FetchResults where
  daily : Date
  hist : List Date
  last90 : List Date

/-- The snapshot list the chosen fetch yields (`vec![fetch_daily()]` for
the fall-through branch). -/
def chosenDates (f : FetchResults) (d : Int) : List Date :=
  match updateFetchChoice d with
  | .hist => f.hist
  | .last90 => f.last90
  | .daily => [f.daily]

/-- The write loop of `update` (lines 166–178), already applied to the
reversed snapshot list (`dates.iter_mut().rev()`): every snapshot strictly
newer than the stored current date read before the loop is keyed, given
the EUR base, `put`, and the `current` pointer is re-`put` to its key. -/
def updateLoop (dbc : CalDate) : List Date → Store → Res Unit × Store
  | [], s => (.ok (), s)
  | d :: rest, s =>
    match parseDate d.value with
    | none => (.err .parse, s)
    | some dd =>
      if calLtB dbc dd then
        match date_as_key d.value with
        | none => (.err .parse, s)
        | some k =>
          updateLoop dbc rest
            (sledInsert currentKeyBytes (StoreVal.keyBlob k)
              (sledInsert k (StoreVal.snap (withEUR d)) s))
      else updateLoop dbc rest s

/-- Model of `Db::update`: date the daily fetch, date the stored current
snapshot, and dispatch on their comparison — equal is a no-op, older
fails with the regression error, newer chooses a feed by staleness and
runs the write loop over it in reverse. -/
def update (f : FetchResults) (s : Store) : Res Unit × Store :=
  match parseDate f.daily.value with
  | none => (.err .parse, s)
  | some current =>
    match get_current_rates s with
    | .err e => (.err e, s)
    | .ok dbd =>
      match parseDate dbd.value with
      | none => (.err .parse, s)
      | some dbc =>
        if current = dbc then (.ok (), s)
        else if calLtB dbc current then
          updateLoop dbc (chosenDates f (toRataDie current - toRataDie dbc)).reverse s
        else (.err .regression, s)

/-! ## Feed and store well-formedness predicates -/

/-- A snapshot whose date string parses to a date on or after the Unix
epoch (every real feed date is 1999 or later). -/
def parsesGE (d : Date) : Bool :=
  match parseDate d.value with
  | some dd => decide (epochRataDie ≤ toRataDie dd)
  | none => false

/-- Chronological comparison of two snapshots by their date strings. -/
def dateLtB (a b : Date) : Bool :=
  match parseDate a.value with
  | none => false
  | some da =>
    match parseDate b.value with
    | none => false
    | some db => calLtB da db

/-- Newest-first (strictly descending) snapshot list, the ordering
convention of the remote feed (spec §6: element 0 = most recent). -/
def sortedDescB : List Date → Bool
  | [] => true
  | [_] => true
  | a :: b :: rest => dateLtB b a && sortedDescB (b :: rest)

/-- The documented remote-feed contract for one `update` call with daily
date `c`: the daily snapshot dates to `c` (on or after the epoch), both
list feeds are nonempty, newest-first, dated on or after the epoch, and
headed by the daily date. -/
def feedOKB (f : FetchResults) (c : CalDate) : Bool :=
  decide (parseDate f.daily.value = some c) &&
  decide (epochRataDie ≤ toRataDie c) &&
  parsesGE f.daily &&
  decide (f.hist ≠ []) && decide (f.last90 ≠ []) &&
  decide (f.hist.head?.map Date.value = some f.daily.value) &&
  decide (f.last90.head?.map Date.value = some f.daily.value) &&
  f.hist.all parsesGE && f.last90.all parsesGE &&
  sortedDescB f.hist && sortedDescB f.last90

/-- A well-formed store entry: snapshots sit under the key of their own
parsed (epoch-or-later) date; pointer blobs may sit anywhere. -/
def entryWF : List Nat × StoreVal → Bool
  | (k, StoreVal.snap d) =>
    match parseDate d.value with
    | some dd => decide (k = encodeDate dd) && decide (epochRataDie ≤ toRataDie dd)
    | none => false
  | (_, StoreVal.keyBlob _) => true

/-- Every entry of the store is well formed. -/
def storeWF (s : Store) : Bool := s.all entryWF

/-- Whether a stored value is a snapshot blob. -/
def isSnapB : StoreVal → Bool
  | StoreVal.snap _ => true
  | StoreVal.keyBlob _ => false

/-- Keys strictly ascending along the association list — the invariant
sled's ordered tree provides for every store it hands out. -/
def sortedKeysB : Store → Bool
  | [] => true
  | [_] => true
  | a :: b :: rest => bytesLtB a.1 b.1 && sortedKeysB (b :: rest)

/-- The snapshot carried by a snapshot blob (dummy on a pointer blob). -/
def snapOf : StoreVal → Date
  | StoreVal.snap d => d
  | StoreVal.keyBlob _ => { value := "", currencies := [] }

/-- The base-currency invariant of spec §3: exactly one entry named `EUR`,
and it carries rate `1.0`. -/
def eurOk (d : Date) : Prop := eurEntries d = [eurBase]

/-! ## Calendar lemmas -/

/-- The repository's own key test vector (`test_date_as_key` in
src/db.rs): the model reproduces it exactly. -/
theorem date_as_key_test_vector :
    date_as_key "1999-01-04" = some [0, 0, 0, 0, 54, 144, 4, 128] := by decide

theorem daysBeforeYear_succ (y : Int) :
    daysBeforeYear (y + 1) = daysBeforeYear y + 365 + (if IsLeap y then 1 else 0) := by
  rw [daysBeforeYear, daysBeforeYear]
  by_cases h : IsLeap y
  · rw [if_pos h]
    unfold IsLeap at h
    omega
  · rw [if_neg h]
    unfold IsLeap at h
    omega

theorem daysBeforeYear_mono {y z : Int} (h : y ≤ z) :
    daysBeforeYear y ≤ daysBeforeYear z := by
  have key : ∀ n : Nat, ∀ w : Int, daysBeforeYear w ≤ daysBeforeYear (w + n) := by
    intro n
    induction n with
    | zero => simp
    | succ n ih =>
      intro w
      have hs := daysBeforeYear_succ (w + n)
      have hn := ih w
      have harg : w + ((n : Int) + 1) = (w + n) + 1 := by ring
      have hcast : ((n + 1 : Nat) : Int) = (n : Int) + 1 := by push_cast; ring
      rw [hcast, harg]
      by_cases hL : IsLeap (w + n)
      · rw [if_pos hL] at hs
        omega
      · rw [if_neg hL] at hs
        omega
  obtain ⟨n, hn⟩ : ∃ n : Nat, z = y + n := ⟨(z - y).toNat, by omega⟩
  rw [hn]
  exact key n y

theorem daysBeforeMonth_nonneg {y m : Int} (h1 : 1 ≤ m) (h2 : m ≤ 12) :
    0 ≤ daysBeforeMonth y m := by
  by_cases hL : IsLeap y <;> interval_cases m <;> simp [daysBeforeMonth, hL]

theorem doy_lt {y m d : Int} (h1 : 1 ≤ m) (h2 : m ≤ 12) (h3 : 1 ≤ d)
    (h4 : d ≤ daysInMonth y m) :
    daysBeforeMonth y m + (d - 1) < 365 + (if IsLeap y then 1 else 0) := by
  by_cases hL : IsLeap y <;> interval_cases m <;>
    simp [daysBeforeMonth, daysInMonth, hL] at h4 ⊢ <;> omega

theorem doy_lt_doy {y m1 d1 m2 d2 : Int} (h1 : 1 ≤ m1) (h2 : m1 ≤ 12)
    (h3 : 1 ≤ d1) (h4 : d1 ≤ daysInMonth y m1) (h5 : 1 ≤ d2)
    (h6 : 1 ≤ m2) (h7 : m2 ≤ 12)
    (horder : m1 < m2 ∨ (m1 = m2 ∧ d1 < d2)) :
    daysBeforeMonth y m1 + (d1 - 1) < daysBeforeMonth y m2 + (d2 - 1) := by
  by_cases hL : IsLeap y <;> interval_cases m1 <;> interval_cases m2 <;>
    simp [daysBeforeMonth, daysInMonth, hL] at h4 ⊢ <;> omega

theorem validB_fields {d : CalDate} (h : d.validB = true) :
    1 ≤ d.month ∧ d.month ≤ 12 ∧ 1 ≤ d.day ∧ d.day ≤ daysInMonth d.year d.month ∧
    -262144 ≤ d.year ∧ d.year ≤ 262143 := by
  simp only [CalDate.validB, Bool.and_eq_true, decide_eq_true_eq] at h
  tauto

theorem toRataDie_lt_of_calLt {a b : CalDate} (ha : a.validB = true)
    (hb : b.validB = true) (hab : calLtB a b = true) :
    toRataDie a < toRataDie b := by
  obtain ⟨ham1, ham2, had1, had2, _, _⟩ := validB_fields ha
  obtain ⟨hbm1, hbm2, hbd1, hbd2, _, _⟩ := validB_fields hb
  simp only [calLtB, Bool.or_eq_true, Bool.and_eq_true, decide_eq_true_eq] at hab
  unfold toRataDie
  rcases hab with hy | ⟨hy, hmd⟩
  · have hs := daysBeforeYear_succ a.year
    have hm := daysBeforeYear_mono (show a.year + 1 ≤ b.year by omega)
    have hda := doy_lt ham1 ham2 had1 had2
    have hdb : 0 ≤ daysBeforeMonth b.year b.month + (b.day - 1) := by
      have := daysBeforeMonth_nonneg (y := b.year) hbm1 hbm2
      omega
    by_cases hL : IsLeap a.year
    · rw [if_pos hL] at hs hda
      omega
    · rw [if_neg hL] at hs hda
      omega
  · rw [hy] at had2 ⊢
    have := doy_lt_doy ham1 ham2 had1 had2 hbd1 hbm1 hbm2 hmd
    omega

theorem toRataDie_upper {d : CalDate} (h : d.validB = true) :
    toRataDie d < 95745764 := by
  obtain ⟨hm1, hm2, hd1, hd2, _, hy2⟩ := validB_fields h
  have hs := daysBeforeYear_succ d.year
  have hm := daysBeforeYear_mono (show d.year + 1 ≤ 262144 by omega)
  have hend : daysBeforeYear 262144 = 95745764 := by decide
  have hda := doy_lt hm1 hm2 hd1 hd2
  unfold toRataDie
  by_cases hL : IsLeap d.year
  · rw [if_pos hL] at hs hda
    omega
  · rw [if_neg hL] at hs hda
    omega

theorem epochRataDie_value : epochRataDie = 719162 := by decide

/-! ## Byte-string lemmas -/

theorem beBytes_length (k n : Nat) : (beBytes k n).length = k := by
  induction k generalizing n with
  | zero => rfl
  | succ k ih => simp [beBytes, ih]

theorem encodeDate_length (d : CalDate) : (encodeDate d).length = 8 := by
  simp [encodeDate, i64ToBeBytes, beBytes_length]

theorem currentKey_ne_encode (d : CalDate) : currentKeyBytes ≠ encodeDate d := by
  intro h
  have h7 : currentKeyBytes.length = 7 := by decide
  have h8 := encodeDate_length d
  rw [h] at h7
  omega

theorem bytesLtB_irrefl (l : List Nat) : bytesLtB l l = false := by
  induction l with
  | nil => rfl
  | cons a as ih => simp [bytesLtB, ih]

theorem bytesLtB_asymm {a b : List Nat} (h : bytesLtB a b = true) :
    bytesLtB b a = false := by
  induction a generalizing b with
  | nil =>
    cases b with
    | nil => simp [bytesLtB] at h
    | cons x xs => rfl
  | cons x xs ih =>
    cases b with
    | nil => simp [bytesLtB] at h
    | cons y ys =>
      simp only [bytesLtB, Bool.or_eq_true, Bool.and_eq_true, decide_eq_true_eq] at h
      rcases h with h | ⟨he, hr⟩
      · have h1 : decide (y < x) = false := by
          simp
          omega
        have h2 : decide (y = x) = false := by
          simp
          omega
        simp [bytesLtB, h1, h2]
      · have h1 : decide (y < x) = false := by
          simp
          omega
        simp [bytesLtB, h1, he.symm, ih hr]

theorem bytesLtB_trans {a b c : List Nat} (h1 : bytesLtB a b = true)
    (h2 : bytesLtB b c = true) : bytesLtB a c = true := by
  induction a generalizing b c with
  | nil =>
    cases c with
    | nil =>
      cases b with
      | nil => simp [bytesLtB] at h1
      | cons y ys => simp [bytesLtB] at h2
    | cons z zs => rfl
  | cons x xs ih =>
    cases b with
    | nil => simp [bytesLtB] at h1
    | cons y ys =>
      cases c with
      | nil => simp [bytesLtB] at h2
      | cons z zs =>
        simp only [bytesLtB, Bool.or_eq_true, Bool.and_eq_true,
          decide_eq_true_eq] at h1 h2 ⊢
        rcases h1 with h1 | ⟨he1, hr1⟩
        · rcases h2 with h2 | ⟨he2, hr2⟩
          · exact Or.inl (by omega)
          · exact Or.inl (by omega)
        · rcases h2 with h2 | ⟨he2, hr2⟩
          · exact Or.inl (by omega)
          · exact Or.inr ⟨by omega, ih hr1 hr2⟩

theorem beBytes_lt {k n1 n2 : Nat} (h : n1 < n2) (hb : n2 < 256 ^ k) :
    bytesLtB (beBytes k n1) (beBytes k n2) = true := by
  induction k generalizing n1 n2 with
  | zero =>
    simp at hb
    omega
  | succ k ih =>
    have hB : 0 < 256 ^ k := pow_pos (by norm_num) k
    have hq : n1 / 256 ^ k ≤ n2 / 256 ^ k := Nat.div_le_div_right (Nat.le_of_lt h)
    rcases Nat.lt_or_eq_of_le hq with hlt | heq
    · simp [beBytes, bytesLtB, hlt]
    · have h1 := Nat.div_add_mod n1 (256 ^ k)
      have h2 := Nat.div_add_mod n2 (256 ^ k)
      have hr2 : n2 % 256 ^ k < 256 ^ k := Nat.mod_lt _ hB
      have hqe : 256 ^ k * (n1 / 256 ^ k) = 256 ^ k * (n2 / 256 ^ k) := by
        rw [heq]
      have hrlt : n1 % 256 ^ k < n2 % 256 ^ k := by omega
      have hrec := ih hrlt hr2
      simp [beBytes, bytesLtB, heq, hrec]

theorem encode_lt {a b : CalDate} (ha : a.validB = true) (hb : b.validB = true)
    (hea : epochRataDie ≤ toRataDie a) (hab : calLtB a b = true) :
    bytesLtB (encodeDate a) (encodeDate b) = true := by
  have hlt := toRataDie_lt_of_calLt ha hb hab
  have hub := toRataDie_upper hb
  have hep := epochRataDie_value
  unfold encodeDate i64ToBeBytes
  have h1lo : (0 : Int) ≤ 86400 * (toRataDie a - epochRataDie) := by omega
  have h2hi : 86400 * (toRataDie b - epochRataDie) < 2 ^ 64 := by omega
  have h2lo : (0 : Int) ≤ 86400 * (toRataDie b - epochRataDie) := by omega
  have hm1 : 86400 * (toRataDie a - epochRataDie) % 2 ^ 64 =
      86400 * (toRataDie a - epochRataDie) := Int.emod_eq_of_lt h1lo (by omega)
  have hm2 : 86400 * (toRataDie b - epochRataDie) % 2 ^ 64 =
      86400 * (toRataDie b - epochRataDie) := Int.emod_eq_of_lt h2lo h2hi
  rw [hm1, hm2]
  have hpw : (256 : Nat) ^ 8 = 2 ^ 64 := by norm_num
  apply beBytes_lt
  · omega
  · rw [hpw]
    omega

theorem encode_ne {a b : CalDate} (ha : a.validB = true) (hb : b.validB = true)
    (hea : epochRataDie ≤ toRataDie a) (hab : calLtB a b = true) :
    encodeDate a ≠ encodeDate b := by
  intro h
  have := encode_lt ha hb hea hab
  rw [h, bytesLtB_irrefl] at this
  exact Bool.false_ne_true this

/-! ## Parsing and chronological-order lemmas -/

theorem mkValidDate_validB {y m dd : Int} {d : CalDate}
    (h : mkValidDate y m dd = some d) : d.validB = true := by
  unfold mkValidDate at h
  split at h
  · cases h
    assumption
  · exact absurd h (by simp)

theorem parseDate_validB {s : String} {d : CalDate} (h : parseDate s = some d) :
    d.validB = true := by
  unfold parseDate at h
  split at h
  · split at h
    · split at h
      · exact absurd h (by simp)
      · exact mkValidDate_validB h
    · exact absurd h (by simp)
  · exact absurd h (by simp)

theorem date_as_key_eq {s : String} {d : CalDate} (h : parseDate s = some d) :
    date_as_key s = some (encodeDate d) := by
  simp [date_as_key, h]

theorem calLtB_iff {a b : CalDate} :
    calLtB a b = true ↔
      (a.year < b.year ∨ (a.year = b.year ∧
        (a.month < b.month ∨ (a.month = b.month ∧ a.day < b.day)))) := by
  simp [calLtB]

theorem calLtB_false_iff {a b : CalDate} :
    calLtB a b = false ↔
      ¬(a.year < b.year ∨ (a.year = b.year ∧
        (a.month < b.month ∨ (a.month = b.month ∧ a.day < b.day)))) := by
  rw [← calLtB_iff]
  cases calLtB a b <;> simp

theorem calLt_asymm {a b : CalDate} (h : calLtB a b = true) :
    calLtB b a = false := by
  rw [calLtB_iff] at h
  rw [calLtB_false_iff]
  omega

theorem calLt_trans {a b c : CalDate} (h1 : calLtB a b = true)
    (h2 : calLtB b c = true) : calLtB a c = true := by
  rw [calLtB_iff] at h1 h2 ⊢
  omega

theorem calLt_le_trans {x a b : CalDate} (h1 : calLtB x a = false)
    (h2 : calLtB x b = true) : calLtB a b = true := by
  rw [calLtB_false_iff] at h1
  rw [calLtB_iff] at h2 ⊢
  omega

theorem calLt_connex {a b : CalDate} (h1 : calLtB a b = false)
    (h2 : calLtB b a = false) : a = b := by
  rw [calLtB_false_iff] at h1 h2
  cases a
  cases b
  simp only [CalDate.mk.injEq]
  simp only at h1 h2
  omega

theorem calLt_ne {a b : CalDate} (h : calLtB a b = true) : a ≠ b := by
  intro he
  rw [calLtB_iff] at h
  rw [he] at h
  omega

theorem dateLtB_some {a b : Date} (h : dateLtB a b = true) :
    ∃ da db, parseDate a.value = some da ∧ parseDate b.value = some db ∧
      calLtB da db = true := by
  unfold dateLtB at h
  split at h
  · exact absurd h (by simp)
  · split at h
    · exact absurd h (by simp)
    · exact ⟨_, _, by assumption, by assumption, h⟩

theorem dateLtB_intro {a b : Date} {da db : CalDate}
    (hpa : parseDate a.value = some da) (hpb : parseDate b.value = some db)
    (h : calLtB da db = true) : dateLtB a b = true := by
  unfold dateLtB
  rw [hpa, hpb]
  exact h

theorem dateLtB_trans {a b c : Date} (h1 : dateLtB a b = true)
    (h2 : dateLtB b c = true) : dateLtB a c = true := by
  obtain ⟨da, db, hpa, hpb, hab⟩ := dateLtB_some h1
  obtain ⟨db2, dc, hpb2, hpc, hbc⟩ := dateLtB_some h2
  rw [hpb] at hpb2
  cases hpb2
  exact dateLtB_intro hpa hpc (calLt_trans hab hbc)

/-! ## Point lookup and insertion lemmas for the store -/

theorem sledGet_insert_self (k : List Nat) (v : StoreVal) (s : Store) :
    sledGet k (sledInsert k v s) = some v := by
  induction s with
  | nil => simp [sledInsert, sledGet]
  | cons kv rest ih =>
    obtain ⟨k1, v1⟩ := kv
    by_cases h2 : k = k1
    · subst h2
      simp [sledInsert, bytesLtB_irrefl, sledGet]
    · by_cases h1 : bytesLtB k k1 = true
      · simp [sledInsert, h1, sledGet]
      · simp [sledInsert, h1, h2, sledGet, ih]

theorem sledGet_insert_ne {k k1 : List Nat} (h : k ≠ k1) (v : StoreVal)
    (s : Store) : sledGet k (sledInsert k1 v s) = sledGet k s := by
  induction s with
  | nil => simp [sledInsert, sledGet, h]
  | cons kv rest ih =>
    obtain ⟨kh, vh⟩ := kv
    by_cases h1 : bytesLtB k1 kh = true
    · simp [sledInsert, h1, sledGet, h]
    · by_cases h2 : k1 = kh
      · subst h2
        simp [sledInsert, h1, sledGet, h]
      · simp [sledInsert, h1, h2, sledGet, ih]

/-! ## Feed-shape lemmas -/

theorem parsesGE_some {d : Date} (h : parsesGE d = true) :
    ∃ dd, parseDate d.value = some dd ∧ epochRataDie ≤ toRataDie dd := by
  unfold parsesGE at h
  split at h
  · exact ⟨_, by assumption, by simpa using h⟩
  · exact absurd h (by simp)

theorem date_as_key_some {s : String} {k : List Nat}
    (h : date_as_key s = some k) :
    ∃ dd, parseDate s = some dd ∧ k = encodeDate dd := by
  unfold date_as_key at h
  cases hp : parseDate s with
  | none =>
    rw [hp] at h
    exact absurd h (by simp)
  | some dd =>
    rw [hp] at h
    replace h : some (encodeDate dd) = some k := h
    injection h with h
    exact ⟨dd, rfl, h.symm⟩

theorem withEUR_value (d : Date) : (withEUR d).value = d.value := rfl

theorem sortedDescB_pairwise :
    ∀ l : List Date, sortedDescB l = true →
      l.Pairwise (fun a b => dateLtB b a = true) := by
  intro l
  induction l with
  | nil => exact fun _ => List.Pairwise.nil
  | cons a rest ih =>
    intro h
    cases rest with
    | nil =>
      refine List.Pairwise.cons ?_ List.Pairwise.nil
      intro c hc
      exact absurd hc (List.not_mem_nil c)
    | cons b rs =>
      rw [sortedDescB, Bool.and_eq_true] at h
      have hp := ih h.2
      refine List.Pairwise.cons ?_ hp
      intro c hc
      rcases List.mem_cons.mp hc with rfl | hcrs
      · exact h.1
      · exact dateLtB_trans ((List.pairwise_cons.mp hp).1 c hcrs) h.1

theorem feedOKB_parts {f : FetchResults} {c : CalDate} (h : feedOKB f c = true) :
    parseDate f.daily.value = some c ∧ epochRataDie ≤ toRataDie c ∧
    parsesGE f.daily = true ∧ f.hist ≠ [] ∧ f.last90 ≠ [] ∧
    f.hist.head?.map Date.value = some f.daily.value ∧
    f.last90.head?.map Date.value = some f.daily.value ∧
    (∀ d ∈ f.hist, parsesGE d = true) ∧ (∀ d ∈ f.last90, parsesGE d = true) ∧
    sortedDescB f.hist = true ∧ sortedDescB f.last90 = true := by
  simp only [feedOKB, Bool.and_eq_true, decide_eq_true_eq, List.all_eq_true] at h
  tauto

theorem chosenDates_spec {f : FetchResults} {c : CalDate}
    (h : feedOKB f c = true) (g : Int) :
    chosenDates f g ≠ [] ∧
    (chosenDates f g).head?.map Date.value = some f.daily.value ∧
    (∀ d ∈ chosenDates f g, parsesGE d = true) ∧
    sortedDescB (chosenDates f g) = true := by
  obtain ⟨hpd, hec, hgd, hh, hl, hhh, hlh, hha, hla, hhs, hls⟩ := feedOKB_parts h
  unfold chosenDates
  cases updateFetchChoice g with
  | hist => exact ⟨hh, hhh, hha, hhs⟩
  | last90 => exact ⟨hl, hlh, hla, hls⟩
  | daily =>
    refine ⟨by simp, by simp, ?_, by simp [sortedDescB]⟩
    intro d hd
    rcases List.mem_singleton.mp hd with rfl
    exact hgd

/-! ## Bootstrap-loop lemmas -/

theorem bootLoop_get_current :
    ∀ (l : List Date) (s : Store),
      sledGet currentKeyBytes (bootLoop l s).2 = sledGet currentKeyBytes s := by
  intro l
  induction l with
  | nil => intro s; rfl
  | cons d rest ih =>
    intro s
    unfold bootLoop
    cases hk : date_as_key d.value with
    | none => rfl
    | some k =>
      rw [ih]
      obtain ⟨dd, _, rfl⟩ := date_as_key_some hk
      exact sledGet_insert_ne (currentKey_ne_encode dd) _ _

theorem bootLoop_snap_stable {k : List Nat} :
    ∀ (l : List Date) (s : Store) (d0 : Date),
      sledGet k s = some (StoreVal.snap d0) →
      ∃ d1, sledGet k (bootLoop l s).2 = some (StoreVal.snap d1) := by
  intro l
  induction l with
  | nil => exact fun s d0 h => ⟨d0, h⟩
  | cons d rest ih =>
    intro s d0 h
    unfold bootLoop
    cases hk : date_as_key d.value with
    | none => exact ⟨d0, h⟩
    | some kk =>
      by_cases he : k = kk
      · subst he
        exact ih _ (withEUR d) (sledGet_insert_self _ _ _)
      · exact ih _ d0 (by rw [sledGet_insert_ne he]; exact h)

theorem bootLoop_writes {d : Date} {k : List Nat}
    (hk : date_as_key d.value = some k) :
    ∀ (l : List Date) (s s1 : Store), bootLoop l s = (.ok (), s1) → d ∈ l →
      ∃ d1, sledGet k s1 = some (StoreVal.snap d1) := by
  intro l
  induction l with
  | nil => intro s s1 _ hd; cases hd
  | cons d2 rest ih =>
    intro s s1 h hd
    unfold bootLoop at h
    cases hk2 : date_as_key d2.value with
    | none =>
      rw [hk2] at h
      exact absurd h (by simp)
    | some kk =>
      rw [hk2] at h
      replace h : bootLoop rest (sledInsert kk (StoreVal.snap (withEUR d2)) s) =
          (.ok (), s1) := h
      rcases List.mem_cons.mp hd with heq | hd2
      · rw [← heq, hk] at hk2
        injection hk2 with hkk
        subst hkk
        have h2 : (bootLoop rest (sledInsert k (StoreVal.snap (withEUR d2)) s)).2 = s1 := by
          rw [h]
        obtain ⟨d1, hh⟩ := bootLoop_snap_stable rest
          (sledInsert k (StoreVal.snap (withEUR d2)) s) (withEUR d2)
          (sledGet_insert_self _ _ _)
        exact ⟨d1, by rw [← h2]; exact hh⟩
      · exact ih _ _ h hd2

theorem bootLoop_ok :
    ∀ (l : List Date) (s : Store), (∀ d ∈ l, (parseDate d.value).isSome = true) →
      (bootLoop l s).1 = .ok () := by
  intro l
  induction l with
  | nil => intro s _; rfl
  | cons d rest ih =>
    intro s h
    have hp : (parseDate d.value).isSome = true := h d (List.mem_cons_self _ _)
    unfold bootLoop
    cases hpp : parseDate d.value with
    | none =>
      rw [hpp] at hp
      simp at hp
    | some dd =>
      rw [date_as_key_eq hpp]
      exact ih _ fun d2 hd2 => h d2 (List.mem_cons_of_mem _ hd2)

/-! ## Update-loop lemmas -/

theorem bool_eq_false {b : Bool} (h : ¬b = true) : b = false := by
  cases b
  · rfl
  · exact absurd rfl h

theorem updateLoop_cons_none {dbc : CalDate} {d : Date} {rest : List Date}
    {s : Store} (hp : parseDate d.value = none) :
    updateLoop dbc (d :: rest) s = (.err .parse, s) := by
  unfold updateLoop
  rw [hp]

theorem updateLoop_cons_skip {dbc : CalDate} {d : Date} {rest : List Date}
    {s : Store} {dd : CalDate} (hp : parseDate d.value = some dd)
    (hq : calLtB dbc dd = false) :
    updateLoop dbc (d :: rest) s = updateLoop dbc rest s := by
  conv_lhs => rw [updateLoop]
  simp only [hp, hq]
  rw [if_neg Bool.false_ne_true]

theorem updateLoop_cons_write {dbc : CalDate} {d : Date} {rest : List Date}
    {s : Store} {dd : CalDate} (hp : parseDate d.value = some dd)
    (hq : calLtB dbc dd = true) :
    updateLoop dbc (d :: rest) s =
      updateLoop dbc rest
        (sledInsert currentKeyBytes (StoreVal.keyBlob (encodeDate dd))
          (sledInsert (encodeDate dd) (StoreVal.snap (withEUR d)) s)) := by
  conv_lhs => rw [updateLoop]
  simp only [hp]
  rw [if_pos hq, date_as_key_eq hp]

theorem updateLoop_ok (dbc : CalDate) :
    ∀ (l : List Date) (s : Store),
      (∀ d ∈ l, (parseDate d.value).isSome = true) →
      (updateLoop dbc l s).1 = .ok () := by
  intro l
  induction l with
  | nil => intro s _; rfl
  | cons d rest ih =>
    intro s h
    have hp : (parseDate d.value).isSome = true := h d (List.mem_cons_self _ _)
    have hrest := fun d2 hd2 => h d2 (List.mem_cons_of_mem _ hd2)
    cases hpp : parseDate d.value with
    | none =>
      rw [hpp] at hp
      simp at hp
    | some dd =>
      by_cases hq : calLtB dbc dd = true
      · rw [updateLoop_cons_write hpp hq]
        exact ih _ hrest
      · rw [updateLoop_cons_skip hpp (bool_eq_false hq)]
        exact ih _ hrest

theorem updateLoop_frame (dbc : CalDate) {k : List Nat}
    (hck : k ≠ currentKeyBytes) :
    ∀ (l : List Date) (s : Store),
      (∀ d ∈ l, ∀ dd, parseDate d.value = some dd → calLtB dbc dd = true →
        k ≠ encodeDate dd) →
      sledGet k (updateLoop dbc l s).2 = sledGet k s := by
  intro l
  induction l with
  | nil => intro s _; rfl
  | cons d rest ih =>
    intro s h
    have hrest := fun d2 hd2 => h d2 (List.mem_cons_of_mem _ hd2)
    cases hpp : parseDate d.value with
    | none => rw [updateLoop_cons_none hpp]
    | some dd =>
      by_cases hq : calLtB dbc dd = true
      · rw [updateLoop_cons_write hpp hq, ih _ hrest,
          sledGet_insert_ne hck,
          sledGet_insert_ne (h d (List.mem_cons_self _ _) dd hpp hq)]
      · rw [updateLoop_cons_skip hpp (bool_eq_false hq)]
        exact ih _ hrest

theorem updateLoop_written (dbc : CalDate) :
    ∀ (l : List Date) (s : Store),
      (∀ d ∈ l, parsesGE d = true) →
      List.Pairwise (fun a b => dateLtB a b = true) l →
      ∀ d ∈ l, ∀ dd, parseDate d.value = some dd → calLtB dbc dd = true →
        sledGet (encodeDate dd) (updateLoop dbc l s).2 =
          some (StoreVal.snap (withEUR d)) := by
  intro l
  induction l with
  | nil => intro s _ _ d hd; cases hd
  | cons d0 rest ih =>
    intro s hge hsort d hd dd hpd hq
    obtain ⟨hhead, htail⟩ := List.pairwise_cons.mp hsort
    obtain ⟨d0d, hp0, he0⟩ := parsesGE_some (hge d0 (List.mem_cons_self _ _))
    have hgerest := fun d2 hd2 => hge d2 (List.mem_cons_of_mem _ hd2)
    rcases List.mem_cons.mp hd with heq | hdrest
    · subst heq
      rw [hpd] at hp0
      injection hp0 with h00
      rw [← h00] at he0
      have hne1 : encodeDate dd ≠ currentKeyBytes :=
        fun hk => currentKey_ne_encode dd hk.symm
      have hfr : ∀ d2 ∈ rest, ∀ dd2, parseDate d2.value = some dd2 →
          calLtB dbc dd2 = true → encodeDate dd ≠ encodeDate dd2 := by
        intro d2 hd2 dd2 hp2 hq2
        have hlt : dateLtB d d2 = true := hhead d2 hd2
        obtain ⟨da, db2, hpa, hpb, hcal⟩ := dateLtB_some hlt
        rw [hpd] at hpa
        injection hpa with ha
        rw [hp2] at hpb
        injection hpb with hb
        rw [← ha, ← hb] at hcal
        exact encode_ne (parseDate_validB hpd) (parseDate_validB hp2) he0 hcal
      rw [updateLoop_cons_write hpd hq,
        updateLoop_frame dbc hne1 rest _ hfr,
        sledGet_insert_ne hne1, sledGet_insert_self]
    · by_cases hq0 : calLtB dbc d0d = true
      · rw [updateLoop_cons_write hp0 hq0]
        exact ih _ hgerest htail d hdrest dd hpd hq
      · rw [updateLoop_cons_skip hp0 (bool_eq_false hq0)]
        exact ih _ hgerest htail d hdrest dd hpd hq

theorem updateLoop_pointer (dbc : CalDate) :
    ∀ (l : List Date) (s : Store) (dl : Date) (cl : CalDate),
      l.getLast? = some dl → parseDate dl.value = some cl →
      calLtB dbc cl = true →
      (∀ d ∈ l, (parseDate d.value).isSome = true) →
      sledGet currentKeyBytes (updateLoop dbc l s).2 =
        some (StoreVal.keyBlob (encodeDate cl)) := by
  intro l
  induction l with
  | nil =>
    intro s dl cl h
    exact absurd h (by simp)
  | cons d0 rest ih =>
    intro s dl cl hlast hpl hql hpar
    cases rest with
    | nil =>
      replace hlast : some d0 = some dl := hlast
      injection hlast with hdl
      subst hdl
      rw [updateLoop_cons_write hpl hql]
      exact sledGet_insert_self _ _ _
    | cons r1 rs =>
      rw [List.getLast?_cons_cons] at hlast
      have hp0 : (parseDate d0.value).isSome = true := hpar d0 (List.mem_cons_self _ _)
      have hparrest := fun d2 hd2 => hpar d2 (List.mem_cons_of_mem _ hd2)
      cases hpp : parseDate d0.value with
      | none =>
        rw [hpp] at hp0
        simp at hp0
      | some dd0 =>
        by_cases hq0 : calLtB dbc dd0 = true
        · rw [updateLoop_cons_write hpp hq0]
          exact ih _ dl cl hlast hpl hql hparrest
        · rw [updateLoop_cons_skip hpp (bool_eq_false hq0)]
          exact ih _ dl cl hlast hpl hql hparrest

/-! ## Unfolding equations for `update` and `bootstrap_new` -/

theorem update_none_daily {f : FetchResults} {s : Store}
    (hp : parseDate f.daily.value = none) : update f s = (.err .parse, s) := by
  unfold update
  rw [hp]

theorem update_err_cur {f : FetchResults} {s : Store} {c : CalDate} {e : Err}
    (hp : parseDate f.daily.value = some c)
    (hc : get_current_rates s = .err e) : update f s = (.err e, s) := by
  unfold update
  simp only [hp, hc]

theorem update_none_dbd {f : FetchResults} {s : Store} {c : CalDate} {dbd : Date}
    (hp : parseDate f.daily.value = some c)
    (hc : get_current_rates s = .ok dbd)
    (hd : parseDate dbd.value = none) : update f s = (.err .parse, s) := by
  unfold update
  simp only [hp, hc, hd]

theorem update_eq {f : FetchResults} {s : Store} {c : CalDate} {dbd : Date}
    {dbc : CalDate} (hdaily : parseDate f.daily.value = some c)
    (hcur : get_current_rates s = .ok dbd)
    (hdbc : parseDate dbd.value = some dbc) :
    update f s =
      if c = dbc then (.ok (), s)
      else if calLtB dbc c = true then
        updateLoop dbc (chosenDates f (toRataDie c - toRataDie dbc)).reverse s
      else (.err .regression, s) := by
  unfold update
  simp only [hdaily, hcur, hdbc]

theorem bootstrap_new_cons {first : Date} {rest : List Date} {k : List Nat}
    (hk : date_as_key first.value = some k) :
    bootstrap_new (first :: rest) =
      bootLoop (first :: rest)
        (sledInsert currentKeyBytes (StoreVal.keyBlob k) []) := by
  unfold bootstrap_new
  simp only [List.head?_cons, hk]

/-! ## Range-scan lemmas -/

theorem rangeDecode_all_snap :
    ∀ l : List (List Nat × StoreVal), (∀ kv ∈ l, isSnapB kv.2 = true) →
      rangeDecode l = .ok (l.map fun kv => snapOf kv.2) := by
  intro l
  induction l with
  | nil => intro _; rfl
  | cons kv rest ih =>
    intro h
    obtain ⟨k, v⟩ := kv
    cases v with
    | snap d =>
      have hr := ih fun kv2 hkv2 => h kv2 (List.mem_cons_of_mem _ hkv2)
      conv_lhs => rw [rangeDecode, hr]
      rfl
    | keyBlob kb =>
      have hh := h (k, StoreVal.keyBlob kb) (List.mem_cons_self _ _)
      simp [isSnapB] at hh

theorem rangeDecode_err :
    ∀ l : List (List Nat × StoreVal),
      (∃ kv ∈ l, isSnapB kv.2 = false) → rangeDecode l = .err .decode := by
  intro l
  induction l with
  | nil =>
    intro h
    obtain ⟨kv, hkv, _⟩ := h
    cases hkv
  | cons kv0 rest ih =>
    intro h
    obtain ⟨kv, hkv, hsnap⟩ := h
    obtain ⟨k, v⟩ := kv0
    cases v with
    | keyBlob kb => rfl
    | snap d =>
      rcases List.mem_cons.mp hkv with heq | hmem
      · rw [heq] at hsnap
        simp [isSnapB] at hsnap
      · have hr := ih ⟨kv, hmem, hsnap⟩
        conv_lhs => rw [rangeDecode, hr]

theorem pairwise_imp_mem {α : Type} {R S : α → α → Prop} :
    ∀ l : List α, (∀ a b, a ∈ l → b ∈ l → R a b → S a b) →
      l.Pairwise R → l.Pairwise S := by
  intro l
  induction l with
  | nil => intro _ _; exact List.Pairwise.nil
  | cons a rest ih =>
    intro himp hp
    obtain ⟨hhead, htail⟩ := List.pairwise_cons.mp hp
    refine List.Pairwise.cons ?_ ?_
    · intro b hb
      exact himp a b (List.mem_cons_self _ _) (List.mem_cons_of_mem _ hb) (hhead b hb)
    · exact ih (fun x y hx hy => himp x y (List.mem_cons_of_mem _ hx)
        (List.mem_cons_of_mem _ hy)) htail

theorem sortedKeysB_pairwise :
    ∀ s : Store, sortedKeysB s = true →
      s.Pairwise (fun a b => bytesLtB a.1 b.1 = true) := by
  intro s
  induction s with
  | nil => exact fun _ => List.Pairwise.nil
  | cons a rest ih =>
    intro h
    cases rest with
    | nil =>
      refine List.Pairwise.cons ?_ List.Pairwise.nil
      intro c hc
      exact absurd hc (List.not_mem_nil c)
    | cons b rs =>
      rw [sortedKeysB, Bool.and_eq_true] at h
      have hp := ih h.2
      refine List.Pairwise.cons ?_ hp
      intro c hc
      rcases List.mem_cons.mp hc with rfl | hcrs
      · exact h.1
      · exact bytesLtB_trans h.1 ((List.pairwise_cons.mp hp).1 c hcrs)

theorem calLt_of_encode_lt {a b : CalDate} (ha : a.validB = true)
    (hb : b.validB = true) (heb : epochRataDie ≤ toRataDie b)
    (h : bytesLtB (encodeDate a) (encodeDate b) = true) : calLtB a b = true := by
  cases hab : calLtB a b with
  | true => rfl
  | false =>
    by_cases heq : a = b
    · subst heq
      rw [bytesLtB_irrefl] at h
      exact absurd h (by simp)
    · have hba : calLtB b a = true := by
        cases hba2 : calLtB b a with
        | true => rfl
        | false => exact absurd (calLt_connex hab hba2) heq
      have hlt := encode_lt hb ha heb hba
      rw [bytesLtB_asymm hlt] at h
      exact absurd h (by simp)

/-! ## EUR-base invariant lemmas -/

theorem withEUR_eurOk {d : Date} (h : eurEntries d = []) : eurOk (withEUR d) := by
  have hone : List.filter (fun c => decide (c.name = "EUR")) [eurBase] = [eurBase] := by
    decide
  unfold eurOk eurEntries withEUR
  simp only [List.filter_append]
  unfold eurEntries at h
  rw [h, hone]
  rfl

theorem bootLoop_eur :
    ∀ (l : List Date) (s : Store),
      (∀ d ∈ l, eurEntries d = []) →
      (∀ k d, sledGet k s = some (StoreVal.snap d) → eurOk d) →
      ∀ k d, sledGet k (bootLoop l s).2 = some (StoreVal.snap d) → eurOk d := by
  intro l
  induction l with
  | nil => exact fun s _ hs => hs
  | cons d0 rest ih =>
    intro s hfree hs
    have hfree0 := hfree d0 (List.mem_cons_self _ _)
    have hfreer := fun d2 hd2 => hfree d2 (List.mem_cons_of_mem _ hd2)
    intro k d h
    cases hk : date_as_key d0.value with
    | none =>
      unfold bootLoop at h
      rw [hk] at h
      exact hs k d h
    | some kk =>
      unfold bootLoop at h
      rw [hk] at h
      replace h : sledGet k
          (bootLoop rest (sledInsert kk (StoreVal.snap (withEUR d0)) s)).2 =
          some (StoreVal.snap d) := h
      refine ih _ hfreer ?_ k d h
      intro k2 d2 h2
      by_cases he2 : k2 = kk
      · subst he2
        rw [sledGet_insert_self] at h2
        injection h2 with h3
        injection h3 with h4
        rw [← h4]
        exact withEUR_eurOk hfree0
      · rw [sledGet_insert_ne he2] at h2
        exact hs k2 d2 h2

theorem updateLoop_eur (dbc : CalDate) :
    ∀ (l : List Date) (s : Store),
      (∀ d ∈ l, eurEntries d = []) →
      (∀ k d, sledGet k s = some (StoreVal.snap d) → eurOk d) →
      ∀ k d, sledGet k (updateLoop dbc l s).2 = some (StoreVal.snap d) → eurOk d := by
  intro l
  induction l with
  | nil => exact fun s _ hs => hs
  | cons d0 rest ih =>
    intro s hfree hs
    have hfree0 := hfree d0 (List.mem_cons_self _ _)
    have hfreer := fun d2 hd2 => hfree d2 (List.mem_cons_of_mem _ hd2)
    intro k d h
    cases hpp : parseDate d0.value with
    | none =>
      rw [updateLoop_cons_none hpp] at h
      exact hs k d h
    | some dd =>
      by_cases hq : calLtB dbc dd = true
      · rw [updateLoop_cons_write hpp hq] at h
        refine ih _ hfreer ?_ k d h
        intro k2 d2 h2
        by_cases hc2 : k2 = currentKeyBytes
        · subst hc2
          rw [sledGet_insert_self] at h2
          injection h2 with h3
          cases h3
        · rw [sledGet_insert_ne hc2] at h2
          by_cases he2 : k2 = encodeDate dd
          · subst he2
            rw [sledGet_insert_self] at h2
            injection h2 with h3
            injection h3 with h4
            rw [← h4]
            exact withEUR_eurOk hfree0
          · rw [sledGet_insert_ne he2] at h2
            exact hs k2 d2 h2
      · rw [updateLoop_cons_skip hpp (bool_eq_false hq)] at h
        exact ih _ hfreer hs k d h

theorem entryWF_snap {k : List Nat} {d : Date}
    (h : entryWF (k, StoreVal.snap d) = true) :
    ∃ dd, parseDate d.value = some dd ∧ k = encodeDate dd ∧
      epochRataDie ≤ toRataDie dd := by
  replace h : (match parseDate d.value with
    | some dd => decide (k = encodeDate dd) && decide (epochRataDie ≤ toRataDie dd)
    | none => false) = true := h
  split at h
  · rw [Bool.and_eq_true, decide_eq_true_eq, decide_eq_true_eq] at h
    exact ⟨_, by assumption, h.1, h.2⟩
  · exact absurd h (by simp)

/-! ## Claim theorems -/

/-- C1: the staleness dispatch of `update` (src/db.rs lines 158–164).  The
claim says a gap of exactly 90 days fetches the last-90-days feed; the
code's guards `d > Duration::days(90)` and
`d < Duration::days(90) && d > Duration::days(1)` both fail at `d = 90`,
so the fall-through branch reuses the single daily snapshot instead.
Evaluated at stored current 2020-01-01 with fetched daily 2020-03-31
(exactly 90 days later): the update succeeds but only the daily snapshot
is written and the intermediate day 2020-01-15 offered by the last-90-days
feed is never stored, which also contradicts the gap-filling purpose of
the branch.  The other branch boundaries match the claim. -/
theorem c1_staleness_boundary_bug :
    toRataDie ⟨2020, 3, 31⟩ - toRataDie ⟨2020, 1, 1⟩ = 90 ∧
    updateFetchChoice 90 = FetchChoice.daily ∧
    updateFetchChoice 90 ≠ FetchChoice.last90 ∧
    updateFetchChoice 91 = FetchChoice.hist ∧
    updateFetchChoice 89 = FetchChoice.last90 ∧
    updateFetchChoice 2 = FetchChoice.last90 ∧
    updateFetchChoice 1 = FetchChoice.daily ∧
    (update ⟨⟨"2020-03-31", []⟩,
        [⟨"2020-03-31", []⟩, ⟨"2020-01-15", []⟩],
        [⟨"2020-03-31", []⟩, ⟨"2020-01-15", []⟩]⟩
      [(encodeDate ⟨2020, 1, 1⟩, StoreVal.snap ⟨"2020-01-01", []⟩),
       (currentKeyBytes, StoreVal.keyBlob (encodeDate ⟨2020, 1, 1⟩))]).1 = .ok () ∧
    sledGet (encodeDate ⟨2020, 1, 15⟩)
      (update ⟨⟨"2020-03-31", []⟩,
        [⟨"2020-03-31", []⟩, ⟨"2020-01-15", []⟩],
        [⟨"2020-03-31", []⟩, ⟨"2020-01-15", []⟩]⟩
      [(encodeDate ⟨2020, 1, 1⟩, StoreVal.snap ⟨"2020-01-01", []⟩),
       (currentKeyBytes, StoreVal.keyBlob (encodeDate ⟨2020, 1, 1⟩))]).2 = none := by
  decide

/-- C2 counterexample: in `bootstrap_new` the `current` pointer is written
first (line 53), before any snapshot.  With a feed whose second snapshot
has an unparseable date the bootstrap fails, yet the pointer entry is
already present in the store — refuting both "the pointer is written
last, after every snapshot entry has been put" and "any failure aborts
before the pointer is set". -/
theorem c2_pointer_written_first_counterexample :
    (bootstrap_new [⟨"2020-01-02", []⟩, ⟨"oops", []⟩]).1 = Res.err Err.parse ∧
    sledGet currentKeyBytes (bootstrap_new [⟨"2020-01-02", []⟩, ⟨"oops", []⟩]).2 =
      some (StoreVal.keyBlob (encodeDate ⟨2020, 1, 2⟩)) := by
  decide

/-- C2 amended: the pointer is written first, not last; on a bootstrap
that completes successfully the pointer's target key nevertheless exists
as a snapshot entry (the first fetched date is also written by the loop),
so the non-dangling invariant holds at successful completion; a mid-loop
failure, however, aborts with the pointer already written. -/
theorem c2_pointer_target_exists_amended :
    ∀ (hist : List Date) (s : Store), bootstrap_new hist = (.ok (), s) →
      ∃ k d, sledGet currentKeyBytes s = some (StoreVal.keyBlob k) ∧
        sledGet k s = some (StoreVal.snap d) := by
  intro hist s h
  cases hist with
  | nil => exact absurd h (by simp [bootstrap_new])
  | cons first rest =>
    cases hk : date_as_key first.value with
    | none =>
      unfold bootstrap_new at h
      simp only [List.head?_cons, hk] at h
      exact absurd h (by simp)
    | some k =>
      rw [bootstrap_new_cons hk] at h
      have h2 : (bootLoop (first :: rest)
          (sledInsert currentKeyBytes (StoreVal.keyBlob k) [])).2 = s := by
        rw [h]
      have hcur : sledGet currentKeyBytes s = some (StoreVal.keyBlob k) := by
        rw [← h2, bootLoop_get_current, sledGet_insert_self]
      obtain ⟨d1, hd1⟩ :=
        bootLoop_writes hk (first :: rest) _ s h (List.mem_cons_self _ _)
      exact ⟨k, d1, hcur, hd1⟩

/-- C2 witness: the amended theorem applied to a concrete one-snapshot
feed. -/
theorem c2_pointer_target_exists_witness :
    ∃ k d, sledGet currentKeyBytes (bootstrap_new [⟨"2020-01-02", []⟩]).2 =
        some (StoreVal.keyBlob k) ∧
      sledGet k (bootstrap_new [⟨"2020-01-02", []⟩]).2 =
        some (StoreVal.snap d) :=
  c2_pointer_target_exists_amended [⟨"2020-01-02", []⟩]
    (bootstrap_new [⟨"2020-01-02", []⟩]).2 (by decide)

/-- C4 counterexample: the engine pushes its EUR base entry
unconditionally, so a remote snapshot that already carries an `"EUR"`
entry is persisted with two of them — the "exactly one ... for every
possible content of the remote feed" quantification fails. -/
theorem c4_eur_duplicate_counterexample :
    (bootstrap_new [⟨"2020-01-02", [⟨"EUR", 1⟩]⟩]).1 = Res.ok () ∧
    sledGet (encodeDate ⟨2020, 1, 2⟩)
        (bootstrap_new [⟨"2020-01-02", [⟨"EUR", 1⟩]⟩]).2 =
      some (StoreVal.snap ⟨"2020-01-02", [⟨"EUR", 1⟩, ⟨"EUR", 1⟩]⟩) ∧
    (eurEntries ⟨"2020-01-02", [⟨"EUR", 1⟩, ⟨"EUR", 1⟩]⟩).length = 2 ∧
    eurEntries ⟨"2020-01-02", [⟨"EUR", 1⟩, ⟨"EUR", 1⟩]⟩ ≠ [eurBase] := by
  decide

/-- C4 amended: provided the remote snapshots carry no `"EUR"` entry of
their own (the documented ECB feed shape), every snapshot value reachable
in the store after `bootstrap_new`, and after `update` run on a store
already satisfying the invariant, contains exactly one `"EUR"` entry and
it has rate `1.0` — on every path, including aborted ones. -/
theorem c4_eur_base_amended :
    (∀ hist : List Date, (∀ d ∈ hist, eurEntries d = []) →
      ∀ r s, bootstrap_new hist = (r, s) →
        ∀ k d, sledGet k s = some (StoreVal.snap d) → eurOk d) ∧
    (∀ (f : FetchResults) (s : Store),
      eurEntries f.daily = [] → (∀ d ∈ f.hist, eurEntries d = []) →
      (∀ d ∈ f.last90, eurEntries d = []) →
      (∀ k d, sledGet k s = some (StoreVal.snap d) → eurOk d) →
      ∀ r s1, update f s = (r, s1) →
        ∀ k d, sledGet k s1 = some (StoreVal.snap d) → eurOk d) := by
  constructor
  · intro hist hfree r s h
    cases hist with
    | nil =>
      replace h : ((Res.err Err.empty, ([] : Store)) : Res Unit × Store) = (r, s) := h
      cases h
      intro k d hget
      cases hget
    | cons first rest =>
      cases hk : date_as_key first.value with
      | none =>
        unfold bootstrap_new at h
        simp only [List.head?_cons, hk] at h
        cases h
        intro k d hget
        cases hget
      | some kk =>
        rw [bootstrap_new_cons hk] at h
        have h2 : (bootLoop (first :: rest)
            (sledInsert currentKeyBytes (StoreVal.keyBlob kk) [])).2 = s := by
          rw [h]
        intro k d hget
        rw [← h2] at hget
        refine bootLoop_eur (first :: rest) _ hfree ?_ k d hget
        intro k2 d2 hg2
        by_cases hc : k2 = currentKeyBytes
        · subst hc
          rw [sledGet_insert_self] at hg2
          injection hg2 with h3
          cases h3
        · rw [sledGet_insert_ne hc] at hg2
          cases hg2
  · intro f s hdf hhf hlf hs r s1 h
    cases hp : parseDate f.daily.value with
    | none =>
      rw [update_none_daily hp] at h
      cases h
      exact hs
    | some c =>
      cases hc : get_current_rates s with
      | err e =>
        rw [update_err_cur hp hc] at h
        cases h
        exact hs
      | ok dbd =>
        cases hd : parseDate dbd.value with
        | none =>
          rw [update_none_dbd hp hc hd] at h
          cases h
          exact hs
        | some dbc =>
          rw [update_eq hp hc hd] at h
          by_cases he : c = dbc
          · rw [if_pos he] at h
            cases h
            exact hs
          · rw [if_neg he] at h
            by_cases hq : calLtB dbc c = true
            · rw [if_pos hq] at h
              have h2 : (updateLoop dbc
                  (chosenDates f (toRataDie c - toRataDie dbc)).reverse s).2 = s1 := by
                rw [h]
              intro k d hget
              rw [← h2] at hget
              refine updateLoop_eur dbc _ s ?_ hs k d hget
              intro d2 hd2
              rw [List.mem_reverse] at hd2
              unfold chosenDates at hd2
              cases h3 : updateFetchChoice (toRataDie c - toRataDie dbc) with
              | hist =>
                rw [h3] at hd2
                exact hhf d2 hd2
              | last90 =>
                rw [h3] at hd2
                exact hlf d2 hd2
              | daily =>
                rw [h3] at hd2
                replace hd2 : d2 ∈ [f.daily] := hd2
                rcases List.mem_singleton.mp hd2 with rfl
                exact hdf
            · rw [if_neg hq] at h
              cases h
              exact hs

/-- C4 witness: the amended invariant applied to a concrete EUR-free
bootstrap feed. -/
theorem c4_eur_base_witness :
    ∀ k d, sledGet k (bootstrap_new [⟨"2020-01-02", []⟩]).2 =
        some (StoreVal.snap d) → eurOk d :=
  c4_eur_base_amended.1 [⟨"2020-01-02", []⟩] (by decide)
    (bootstrap_new [⟨"2020-01-02", []⟩]).1
    (bootstrap_new [⟨"2020-01-02", []⟩]).2 (by decide)

/-- C5 counterexample: `date_as_key` emits the two's-complement bytes of
a signed 64-bit timestamp, so the pre-epoch valid date 1969-12-31 (whose
timestamp is negative) encodes with a leading `0xFF` byte and compares
unsigned-lexicographically above the later date 1970-01-01 — order
preservation fails across the epoch. -/
theorem c5_preepoch_order_counterexample :
    parseDate "1969-12-31" = some ⟨1969, 12, 31⟩ ∧
    parseDate "1970-01-01" = some ⟨1970, 1, 1⟩ ∧
    calLtB ⟨1969, 12, 31⟩ ⟨1970, 1, 1⟩ = true ∧
    date_as_key "1969-12-31" = some [255, 255, 255, 255, 255, 254, 174, 128] ∧
    date_as_key "1970-01-01" = some [0, 0, 0, 0, 0, 0, 0, 0] ∧
    bytesLtB [255, 255, 255, 255, 255, 254, 174, 128]
      [0, 0, 0, 0, 0, 0, 0, 0] = false := by
  decide

/-- C5 amended: the key codec is pure (two strings parsing to the same
calendar date always produce the same key), and the order-preservation
half holds for every pair of valid dates on or after 1970-01-01 (i.e.
dates with non-negative timestamps — every date the feed can actually
produce, the feed starting at 1999-01-04). -/
theorem c5_key_order_amended :
    (∀ (s1 s2 : String) (d : CalDate), parseDate s1 = some d →
      parseDate s2 = some d → date_as_key s1 = date_as_key s2) ∧
    (∀ (s1 s2 : String) (d1 d2 : CalDate), parseDate s1 = some d1 →
      parseDate s2 = some d2 → epochRataDie ≤ toRataDie d1 →
      calLtB d1 d2 = true →
      date_as_key s1 = some (encodeDate d1) ∧
      date_as_key s2 = some (encodeDate d2) ∧
      bytesLtB (encodeDate d1) (encodeDate d2) = true) := by
  constructor
  · intro s1 s2 d h1 h2
    rw [date_as_key_eq h1, date_as_key_eq h2]
  · intro s1 s2 d1 d2 h1 h2 he hlt
    exact ⟨date_as_key_eq h1, date_as_key_eq h2,
      encode_lt (parseDate_validB h1) (parseDate_validB h2) he hlt⟩

/-- C5 witness: the amended order theorem at 1999-01-04 < 2003-01-04. -/
theorem c5_key_order_witness :
    date_as_key "1999-01-04" = some (encodeDate ⟨1999, 1, 4⟩) ∧
    date_as_key "2003-01-04" = some (encodeDate ⟨2003, 1, 4⟩) ∧
    bytesLtB (encodeDate ⟨1999, 1, 4⟩) (encodeDate ⟨2003, 1, 4⟩) = true :=
  c5_key_order_amended.2 "1999-01-04" "2003-01-04" ⟨1999, 1, 4⟩ ⟨2003, 1, 4⟩
    (by decide) (by decide) (by decide) (by decide)

/-- C6: when the fetched daily date is strictly earlier than the stored
current date, `update` returns the regression error (src/db.rs lines
180–184) and the store is returned unchanged — no snapshot write and no
pointer movement happen on that path. -/
theorem c6_regression_error_no_writes (f : FetchResults) (s : Store)
    (c : CalDate) (dbd : Date) (dbc : CalDate)
    (hp : parseDate f.daily.value = some c)
    (hc : get_current_rates s = .ok dbd)
    (hd : parseDate dbd.value = some dbc)
    (hq : calLtB c dbc = true) :
    update f s = (.err .regression, s) := by
  rw [update_eq hp hc hd, if_neg (calLt_ne hq),
    if_neg (by simp [calLt_asymm hq])]

/-- C6 witness: Scenario D of the spec — stored current 2020-04-01,
fetched daily 2020-03-30. -/
theorem c6_regression_error_no_writes_witness :
    update ⟨⟨"2020-03-30", []⟩, [⟨"2020-03-30", []⟩], [⟨"2020-03-30", []⟩]⟩
        [(encodeDate ⟨2020, 4, 1⟩, StoreVal.snap ⟨"2020-04-01", []⟩),
         (currentKeyBytes, StoreVal.keyBlob (encodeDate ⟨2020, 4, 1⟩))] =
      (.err .regression,
        [(encodeDate ⟨2020, 4, 1⟩, StoreVal.snap ⟨"2020-04-01", []⟩),
         (currentKeyBytes, StoreVal.keyBlob (encodeDate ⟨2020, 4, 1⟩))]) :=
  c6_regression_error_no_writes
    ⟨⟨"2020-03-30", []⟩, [⟨"2020-03-30", []⟩], [⟨"2020-03-30", []⟩]⟩
    [(encodeDate ⟨2020, 4, 1⟩, StoreVal.snap ⟨"2020-04-01", []⟩),
     (currentKeyBytes, StoreVal.keyBlob (encodeDate ⟨2020, 4, 1⟩))]
    ⟨2020, 3, 30⟩ ⟨"2020-04-01", []⟩ ⟨2020, 4, 1⟩
    (by decide) (by decide) (by decide) (by decide)

/-- C9 counterexample: `Db::put` serializes its value with bincode, and
the value handed to `put(b"current", ...)` is the `Vec<u8>` produced by
`date_as_key`, so the bytes persisted under `"current"` are the 16-byte
bincode blob (8-byte little-endian length prefix `8`, then the key) — not
"exactly the 8-byte Key blob" the claim states. -/
theorem c9_pointer_value_bincode_counterexample :
    (bootstrap_new [⟨"2020-01-02", []⟩]).1 = Res.ok () ∧
    sledGet currentKeyBytes (bootstrap_new [⟨"2020-01-02", []⟩]).2 =
      some (StoreVal.keyBlob (encodeDate ⟨2020, 1, 2⟩)) ∧
    bincodeVecU8 (encodeDate ⟨2020, 1, 2⟩) =
      [8, 0, 0, 0, 0, 0, 0, 0, 0, 0, 0, 0, 94, 13, 50, 128] ∧
    (encodeDate ⟨2020, 1, 2⟩).length = 8 ∧
    (bincodeVecU8 (encodeDate ⟨2020, 1, 2⟩)).length = 16 ∧
    bincodeVecU8 (encodeDate ⟨2020, 1, 2⟩) ≠ encodeDate ⟨2020, 1, 2⟩ := by
  decide

/-- C9 amended: after a successful bootstrap the entry under the literal
key `"current"` holds the first (most recent) snapshot's 8-byte
big-endian-timestamp Key — persisted as its bincode `Vec<u8>`
serialization, an 8-byte little-endian length prefix followed by those 8
key bytes — and every fetched snapshot is stored under its own 8-byte
Key. -/
theorem c9_layout_amended :
    ∀ (hist : List Date) (s : Store), bootstrap_new hist = (.ok (), s) →
      ∃ first rest c0, hist = first :: rest ∧
        parseDate first.value = some c0 ∧
        sledGet currentKeyBytes s = some (StoreVal.keyBlob (encodeDate c0)) ∧
        (encodeDate c0).length = 8 ∧
        bincodeVecU8 (encodeDate c0) = leBytes 8 8 ++ encodeDate c0 ∧
        (∀ d ∈ hist, ∀ dd, parseDate d.value = some dd →
          ∃ d1, sledGet (encodeDate dd) s = some (StoreVal.snap d1) ∧
            (encodeDate dd).length = 8) := by
  intro hist s h
  cases hist with
  | nil => exact absurd h (by simp [bootstrap_new])
  | cons first rest =>
    cases hk : date_as_key first.value with
    | none =>
      unfold bootstrap_new at h
      simp only [List.head?_cons, hk] at h
      exact absurd h (by simp)
    | some k =>
      obtain ⟨c0, hp0, hke⟩ := date_as_key_some hk
      rw [bootstrap_new_cons hk] at h
      have h2 : (bootLoop (first :: rest)
          (sledInsert currentKeyBytes (StoreVal.keyBlob k) [])).2 = s := by
        rw [h]
      refine ⟨first, rest, c0, rfl, hp0, ?_, encodeDate_length c0, ?_, ?_⟩
      · rw [← h2, bootLoop_get_current, sledGet_insert_self, hke]
      · rw [bincodeVecU8, encodeDate_length]
      · intro d hd dd hpd
        obtain ⟨d1, hd1⟩ :=
          bootLoop_writes (date_as_key_eq hpd) (first :: rest) _ s h hd
        exact ⟨d1, hd1, encodeDate_length dd⟩

/-- C9 witness: the amended layout theorem at a concrete one-snapshot
bootstrap. -/
theorem c9_layout_witness :
    ∃ first rest c0, ([⟨"2020-01-02", []⟩] : List Date) = first :: rest ∧
      parseDate first.value = some c0 ∧
      sledGet currentKeyBytes (bootstrap_new [⟨"2020-01-02", []⟩]).2 =
        some (StoreVal.keyBlob (encodeDate c0)) ∧
      (encodeDate c0).length = 8 ∧
      bincodeVecU8 (encodeDate c0) = leBytes 8 8 ++ encodeDate c0 ∧
      (∀ d ∈ ([⟨"2020-01-02", []⟩] : List Date), ∀ dd,
        parseDate d.value = some dd →
        ∃ d1, sledGet (encodeDate dd) (bootstrap_new [⟨"2020-01-02", []⟩]).2 =
            some (StoreVal.snap d1) ∧ (encodeDate dd).length = 8) :=
  c9_layout_amended [⟨"2020-01-02", []⟩]
    (bootstrap_new [⟨"2020-01-02", []⟩]).2 (by decide)

/-- Shared shape of a successful `update` on the fetched-later branch:
the chosen feed list is nonempty and headed by the daily snapshot, the
call succeeds with the loop's final store, the pointer ends at the daily
date's key, and that key holds the head snapshot with the EUR base. -/
theorem update_greater_spec (f : FetchResults) (s : Store) (c : CalDate)
    (dbd : Date) (dbc : CalDate)
    (hf : feedOKB f c = true)
    (hc : get_current_rates s = .ok dbd)
    (hd : parseDate dbd.value = some dbc)
    (hq : calLtB dbc c = true) :
    ∃ h0 t, chosenDates f (toRataDie c - toRataDie dbc) = h0 :: t ∧
      h0.value = f.daily.value ∧
      update f s = (.ok (),
        (updateLoop dbc (chosenDates f (toRataDie c - toRataDie dbc)).reverse s).2) ∧
      sledGet currentKeyBytes (update f s).2 =
        some (StoreVal.keyBlob (encodeDate c)) ∧
      sledGet (encodeDate c) (update f s).2 =
        some (StoreVal.snap (withEUR h0)) := by
  obtain ⟨hdaily, hec, hgd, hrest⟩ := feedOKB_parts hf
  obtain ⟨hLne, hLhead, hLge, hLsort⟩ :=
    chosenDates_spec hf (toRataDie c - toRataDie dbc)
  obtain ⟨h0, t, hL⟩ : ∃ h0 t,
      chosenDates f (toRataDie c - toRataDie dbc) = h0 :: t := by
    cases hcd : chosenDates f (toRataDie c - toRataDie dbc) with
    | nil => exact absurd hcd hLne
    | cons x xs => exact ⟨x, xs, rfl⟩
  replace hLhead : some h0.value = some f.daily.value := by
    rw [hL] at hLhead
    exact hLhead
  injection hLhead with hval
  have hp0 : parseDate h0.value = some c := by
    rw [hval]
    exact hdaily
  have hLparse : ∀ d ∈ (chosenDates f (toRataDie c - toRataDie dbc)).reverse,
      (parseDate d.value).isSome = true := by
    intro d hd2
    rw [List.mem_reverse] at hd2
    obtain ⟨dd, hp, _⟩ := parsesGE_some (hLge d hd2)
    rw [hp]
    rfl
  have hcne : ¬(c = dbc) := fun he => (calLt_ne hq) he.symm
  have hupd : update f s =
      updateLoop dbc (chosenDates f (toRataDie c - toRataDie dbc)).reverse s := by
    rw [update_eq hdaily hc hd, if_neg hcne, if_pos hq]
  have hok := updateLoop_ok dbc
    (chosenDates f (toRataDie c - toRataDie dbc)).reverse s hLparse
  have hpair : update f s = (.ok (),
      (updateLoop dbc (chosenDates f (toRataDie c - toRataDie dbc)).reverse s).2) := by
    rw [hupd]
    have he2 := Prod.mk.eta
      (p := updateLoop dbc (chosenDates f (toRataDie c - toRataDie dbc)).reverse s)
    rw [hok] at he2
    exact he2.symm
  have hlastrev :
      (chosenDates f (toRataDie c - toRataDie dbc)).reverse.getLast? = some h0 := by
    rw [List.getLast?_reverse, hL, List.head?_cons]
  have hcur := updateLoop_pointer dbc
    (chosenDates f (toRataDie c - toRataDie dbc)).reverse s h0 c
    hlastrev hp0 hq hLparse
  have hmem0 : h0 ∈ (chosenDates f (toRataDie c - toRataDie dbc)).reverse := by
    rw [List.mem_reverse, hL]
    exact List.mem_cons_self _ _
  have hsortasc : (chosenDates f (toRataDie c - toRataDie dbc)).reverse.Pairwise
      (fun a b => dateLtB a b = true) := by
    rw [List.pairwise_reverse]
    exact sortedDescB_pairwise _ hLsort
  have hLgerev : ∀ d ∈ (chosenDates f (toRataDie c - toRataDie dbc)).reverse,
      parsesGE d = true := by
    intro d hd2
    rw [List.mem_reverse] at hd2
    exact hLge d hd2
  have hsnap := updateLoop_written dbc
    (chosenDates f (toRataDie c - toRataDie dbc)).reverse s
    hLgerev hsortasc h0 hmem0 c hp0 hq
  refine ⟨h0, t, hL, hval, hpair, ?_, ?_⟩
  · rw [hpair]
    exact hcur
  · rw [hpair]
    exact hsnap

/-- C3: on the fetched-later branch with the documented feed contract
(nonempty, newest-first, headed by the daily date, all dates parseable and
on or after the epoch), `update` succeeds and its final store is the old
store overwritten at exactly the keys of the fetched snapshots strictly
newer than the stored current date (read once before the loop): each such
snapshot is stored with the EUR base under its key, snapshots not
strictly newer leave their keys untouched, every key other than those and
the pointer is untouched, and the pointer resolves to the newest fetched
date (the daily date) whose snapshot is present. -/
theorem c3_update_writes_exactly_newer (f : FetchResults) (s : Store)
    (c : CalDate) (dbd : Date) (dbc : CalDate)
    (hf : feedOKB f c = true)
    (hc : get_current_rates s = .ok dbd)
    (hd : parseDate dbd.value = some dbc)
    (hq : calLtB dbc c = true) :
    ∃ s1, update f s = (.ok (), s1) ∧
      sledGet currentKeyBytes s1 = some (StoreVal.keyBlob (encodeDate c)) ∧
      (∃ dsnap, sledGet (encodeDate c) s1 = some (StoreVal.snap dsnap) ∧
        parseDate dsnap.value = some c) ∧
      (∀ d ∈ chosenDates f (toRataDie c - toRataDie dbc), ∀ dd,
        parseDate d.value = some dd → calLtB dbc dd = true →
        sledGet (encodeDate dd) s1 = some (StoreVal.snap (withEUR d))) ∧
      (∀ d ∈ chosenDates f (toRataDie c - toRataDie dbc), ∀ dd,
        parseDate d.value = some dd → calLtB dbc dd = false →
        sledGet (encodeDate dd) s1 = sledGet (encodeDate dd) s) ∧
      (∀ k, k ≠ currentKeyBytes →
        (∀ d ∈ chosenDates f (toRataDie c - toRataDie dbc), ∀ dd,
          parseDate d.value = some dd → calLtB dbc dd = true →
          k ≠ encodeDate dd) →
        sledGet k s1 = sledGet k s) := by
  obtain ⟨h0, t, hL, hval, hpair, hcur, hsnap⟩ :=
    update_greater_spec f s c dbd dbc hf hc hd hq
  obtain ⟨hdaily, hrest⟩ := feedOKB_parts hf
  obtain ⟨hLne, hLhead, hLge, hLsort⟩ :=
    chosenDates_spec hf (toRataDie c - toRataDie dbc)
  have hsortasc : (chosenDates f (toRataDie c - toRataDie dbc)).reverse.Pairwise
      (fun a b => dateLtB a b = true) := by
    rw [List.pairwise_reverse]
    exact sortedDescB_pairwise _ hLsort
  have hLgerev : ∀ d ∈ (chosenDates f (toRataDie c - toRataDie dbc)).reverse,
      parsesGE d = true := by
    intro d hd2
    rw [List.mem_reverse] at hd2
    exact hLge d hd2
  have hs1 : (update f s).2 =
      (updateLoop dbc (chosenDates f (toRataDie c - toRataDie dbc)).reverse s).2 := by
    rw [hpair]
  refine ⟨(update f s).2, ?_, hcur, ⟨withEUR h0, hsnap, ?_⟩, ?_, ?_, ?_⟩
  · rw [hpair]
  · rw [withEUR_value, hval]
    exact hdaily
  · intro d hd2 dd hpd hqd
    rw [hs1]
    have hmem : d ∈ (chosenDates f (toRataDie c - toRataDie dbc)).reverse := by
      rw [List.mem_reverse]
      exact hd2
    exact updateLoop_written dbc _ s hLgerev hsortasc d hmem dd hpd hqd
  · intro d hd2 dd hpd hqd
    rw [hs1]
    have hne : encodeDate dd ≠ currentKeyBytes :=
      fun hk => currentKey_ne_encode dd hk.symm
    refine updateLoop_frame dbc hne _ s ?_
    intro d2 hd2r dd2 hp2 hq2
    rw [List.mem_reverse] at hd2r
    obtain ⟨ddx, hpx, hex⟩ := parsesGE_some (hLge d hd2)
    rw [hpd] at hpx
    injection hpx with hxx
    rw [← hxx] at hex
    have hcal : calLtB dd dd2 = true := calLt_le_trans hqd hq2
    exact encode_ne (parseDate_validB hpd) (parseDate_validB hp2) hex hcal
  · intro k hkc hkne
    rw [hs1]
    refine updateLoop_frame dbc hkc _ s ?_
    intro d2 hd2r dd2 hp2 hq2
    rw [List.mem_reverse] at hd2r
    exact hkne d2 hd2r dd2 hp2 hq2

/-- C3 witness: a concrete one-day-stale store updated from a two-element
newest-first feed. -/
theorem c3_update_writes_exactly_newer_witness :
    ∃ s1, update ⟨⟨"2020-01-02", []⟩,
        [⟨"2020-01-02", []⟩, ⟨"2020-01-01", []⟩],
        [⟨"2020-01-02", []⟩, ⟨"2020-01-01", []⟩]⟩
      [(encodeDate ⟨2020, 1, 1⟩, StoreVal.snap ⟨"2020-01-01", []⟩),
       (currentKeyBytes, StoreVal.keyBlob (encodeDate ⟨2020, 1, 1⟩))] =
        (.ok (), s1) ∧
      sledGet currentKeyBytes s1 =
        some (StoreVal.keyBlob (encodeDate ⟨2020, 1, 2⟩)) ∧
      (∃ dsnap, sledGet (encodeDate ⟨2020, 1, 2⟩) s1 =
          some (StoreVal.snap dsnap) ∧
        parseDate dsnap.value = some ⟨2020, 1, 2⟩) ∧
      (∀ d ∈ chosenDates ⟨⟨"2020-01-02", []⟩,
          [⟨"2020-01-02", []⟩, ⟨"2020-01-01", []⟩],
          [⟨"2020-01-02", []⟩, ⟨"2020-01-01", []⟩]⟩
          (toRataDie ⟨2020, 1, 2⟩ - toRataDie ⟨2020, 1, 1⟩), ∀ dd,
        parseDate d.value = some dd → calLtB ⟨2020, 1, 1⟩ dd = true →
        sledGet (encodeDate dd) s1 = some (StoreVal.snap (withEUR d))) ∧
      (∀ d ∈ chosenDates ⟨⟨"2020-01-02", []⟩,
          [⟨"2020-01-02", []⟩, ⟨"2020-01-01", []⟩],
          [⟨"2020-01-02", []⟩, ⟨"2020-01-01", []⟩]⟩
          (toRataDie ⟨2020, 1, 2⟩ - toRataDie ⟨2020, 1, 1⟩), ∀ dd,
        parseDate d.value = some dd → calLtB ⟨2020, 1, 1⟩ dd = false →
        sledGet (encodeDate dd) s1 =
          sledGet (encodeDate dd)
            [(encodeDate ⟨2020, 1, 1⟩, StoreVal.snap ⟨"2020-01-01", []⟩),
             (currentKeyBytes, StoreVal.keyBlob (encodeDate ⟨2020, 1, 1⟩))]) ∧
      (∀ k, k ≠ currentKeyBytes →
        (∀ d ∈ chosenDates ⟨⟨"2020-01-02", []⟩,
            [⟨"2020-01-02", []⟩, ⟨"2020-01-01", []⟩],
            [⟨"2020-01-02", []⟩, ⟨"2020-01-01", []⟩]⟩
            (toRataDie ⟨2020, 1, 2⟩ - toRataDie ⟨2020, 1, 1⟩), ∀ dd,
          parseDate d.value = some dd → calLtB ⟨2020, 1, 1⟩ dd = true →
          k ≠ encodeDate dd) →
        sledGet k s1 =
          sledGet k
            [(encodeDate ⟨2020, 1, 1⟩, StoreVal.snap ⟨"2020-01-01", []⟩),
             (currentKeyBytes, StoreVal.keyBlob (encodeDate ⟨2020, 1, 1⟩))]) :=
  c3_update_writes_exactly_newer
    ⟨⟨"2020-01-02", []⟩, [⟨"2020-01-02", []⟩, ⟨"2020-01-01", []⟩],
      [⟨"2020-01-02", []⟩, ⟨"2020-01-01", []⟩]⟩
    [(encodeDate ⟨2020, 1, 1⟩, StoreVal.snap ⟨"2020-01-01", []⟩),
     (currentKeyBytes, StoreVal.keyBlob (encodeDate ⟨2020, 1, 1⟩))]
    ⟨2020, 1, 2⟩ ⟨"2020-01-01", []⟩ ⟨2020, 1, 1⟩
    (by decide) (by decide) (by decide) (by decide)

/-- C7: an `update` whose fetched daily date equals the stored current
date is a successful no-op returning the store unchanged; consequently,
under the documented feed contract, a second `update` run immediately
after a successful one with the same remote responses is a successful
no-op on the store the first call produced. -/
theorem c7_equal_noop_idempotent :
    (∀ (f : FetchResults) (s : Store) (c : CalDate) (dbd : Date),
      parseDate f.daily.value = some c → get_current_rates s = .ok dbd →
      parseDate dbd.value = some c → update f s = (.ok (), s)) ∧
    (∀ (f : FetchResults) (s s2 : Store) (c : CalDate) (dbd : Date)
      (dbc : CalDate),
      feedOKB f c = true → get_current_rates s = .ok dbd →
      parseDate dbd.value = some dbc →
      update f s = (.ok (), s2) → update f s2 = (.ok (), s2)) := by
  constructor
  · intro f s c dbd hp hc hd
    rw [update_eq hp hc hd, if_pos rfl]
  · intro f s s2 c dbd dbc hf hc hd hupd
    obtain ⟨hdaily, hrest⟩ := feedOKB_parts hf
    by_cases heq : c = dbc
    · rw [update_eq hdaily hc hd, if_pos heq] at hupd
      injection hupd with h1 h2
      subst h2
      have hd2 : parseDate dbd.value = some c := by rw [hd, heq]
      rw [update_eq hdaily hc hd2, if_pos rfl]
    · by_cases hq : calLtB dbc c = true
      · obtain ⟨h0, t, hL, hval, hpair, hcur, hsnap⟩ :=
          update_greater_spec f s c dbd dbc hf hc hd hq
        have hs2 : (update f s).2 = s2 := by rw [hupd]
        rw [hs2] at hcur hsnap
        have hc2 : get_current_rates s2 = .ok (withEUR h0) := by
          unfold get_current_rates
          simp only [hcur, hsnap]
        have hp2 : parseDate (withEUR h0).value = some c := by
          rw [withEUR_value, hval]
          exact hdaily
        rw [update_eq hdaily hc2 hp2, if_pos rfl]
      · rw [update_eq hdaily hc hd, if_neg heq, if_neg hq] at hupd
        exact absurd hupd (by simp)

/-- C7 witness: Scenario-B-style double update on a concrete store — the
second call leaves the first call's store untouched. -/
theorem c7_equal_noop_idempotent_witness :
    update ⟨⟨"2020-01-02", []⟩,
        [⟨"2020-01-02", []⟩, ⟨"2020-01-01", []⟩],
        [⟨"2020-01-02", []⟩, ⟨"2020-01-01", []⟩]⟩
      (update ⟨⟨"2020-01-02", []⟩,
          [⟨"2020-01-02", []⟩, ⟨"2020-01-01", []⟩],
          [⟨"2020-01-02", []⟩, ⟨"2020-01-01", []⟩]⟩
        [(encodeDate ⟨2020, 1, 1⟩, StoreVal.snap ⟨"2020-01-01", []⟩),
         (currentKeyBytes, StoreVal.keyBlob (encodeDate ⟨2020, 1, 1⟩))]).2 =
      (.ok (), (update ⟨⟨"2020-01-02", []⟩,
          [⟨"2020-01-02", []⟩, ⟨"2020-01-01", []⟩],
          [⟨"2020-01-02", []⟩, ⟨"2020-01-01", []⟩]⟩
        [(encodeDate ⟨2020, 1, 1⟩, StoreVal.snap ⟨"2020-01-01", []⟩),
         (currentKeyBytes, StoreVal.keyBlob (encodeDate ⟨2020, 1, 1⟩))]).2) :=
  c7_equal_noop_idempotent.2
    ⟨⟨"2020-01-02", []⟩, [⟨"2020-01-02", []⟩, ⟨"2020-01-01", []⟩],
      [⟨"2020-01-02", []⟩, ⟨"2020-01-01", []⟩]⟩
    [(encodeDate ⟨2020, 1, 1⟩, StoreVal.snap ⟨"2020-01-01", []⟩),
     (currentKeyBytes, StoreVal.keyBlob (encodeDate ⟨2020, 1, 1⟩))]
    (update ⟨⟨"2020-01-02", []⟩,
        [⟨"2020-01-02", []⟩, ⟨"2020-01-01", []⟩],
        [⟨"2020-01-02", []⟩, ⟨"2020-01-01", []⟩]⟩
      [(encodeDate ⟨2020, 1, 1⟩, StoreVal.snap ⟨"2020-01-01", []⟩),
       (currentKeyBytes, StoreVal.keyBlob (encodeDate ⟨2020, 1, 1⟩))]).2
    ⟨2020, 1, 2⟩ ⟨"2020-01-01", []⟩ ⟨2020, 1, 1⟩
    (by decide) (by decide) (by decide) (by decide)

/-- C8: `get_range_rates` over any sorted well-formed store and any pair
of bounds returns exactly the stored snapshots whose keys lie in the
inclusive encoded-bound range, in ascending chronological order of their
dates, when every value in range decodes as a snapshot; and if any value
in range is not a snapshot blob the whole call fails with the decode
error and no partial result is returned. -/
theorem c8_range_scan_spec (startAt endAt : CalDate) (s : Store)
    (hsort : sortedKeysB s = true) (hwf : storeWF s = true) :
    ((∀ kv ∈ s, inRangeB (encodeDate startAt) (encodeDate endAt) kv.1 = true →
        isSnapB kv.2 = true) →
      ∃ l, get_range_rates startAt endAt s = .ok l ∧
        (∀ d, d ∈ l ↔ ∃ k, (k, StoreVal.snap d) ∈ s ∧
          inRangeB (encodeDate startAt) (encodeDate endAt) k = true) ∧
        l.Pairwise (fun a b => dateLtB a b = true)) ∧
    ((∃ kv ∈ s, inRangeB (encodeDate startAt) (encodeDate endAt) kv.1 = true ∧
        isSnapB kv.2 = false) →
      get_range_rates startAt endAt s = .err .decode) := by
  have hpair := sortedKeysB_pairwise s hsort
  have hgr : get_range_rates startAt endAt s =
      rangeDecode (s.filter fun kv =>
        inRangeB (encodeDate startAt) (encodeDate endAt) kv.1) := rfl
  constructor
  · intro hall
    have hallF : ∀ kv ∈ (s.filter fun kv =>
        inRangeB (encodeDate startAt) (encodeDate endAt) kv.1),
        isSnapB kv.2 = true := by
      intro kv hkv
      obtain ⟨hmem, hrange⟩ := List.mem_filter.mp hkv
      exact hall kv hmem hrange
    have hdec := rangeDecode_all_snap _ hallF
    refine ⟨_, by rw [hgr, hdec], ?_, ?_⟩
    · intro d
      constructor
      · intro hd
        obtain ⟨kv, hkvF, hmap⟩ := List.mem_map.mp hd
        obtain ⟨hmem, hrange⟩ := List.mem_filter.mp hkvF
        obtain ⟨k, v⟩ := kv
        cases v with
        | keyBlob kb =>
          have hbad := hallF (k, StoreVal.keyBlob kb) hkvF
          simp [isSnapB] at hbad
        | snap d2 =>
          replace hmap : d2 = d := hmap
          subst hmap
          exact ⟨k, hmem, hrange⟩
      · intro hex
        obtain ⟨k, hmem, hrange⟩ := hex
        apply List.mem_map.mpr
        exact ⟨(k, StoreVal.snap d), List.mem_filter.mpr ⟨hmem, hrange⟩, rfl⟩
    · apply List.pairwise_map.mpr
      refine pairwise_imp_mem _ ?_
        (List.Pairwise.sublist (List.filter_sublist _) hpair)
      intro kv1 kv2 h1m h2m hblt
      have hs1 : isSnapB kv1.2 = true := hallF kv1 h1m
      have hs2 : isSnapB kv2.2 = true := hallF kv2 h2m
      have hw1 : entryWF kv1 = true :=
        List.all_eq_true.mp hwf kv1 (List.mem_filter.mp h1m).1
      have hw2 : entryWF kv2 = true :=
        List.all_eq_true.mp hwf kv2 (List.mem_filter.mp h2m).1
      obtain ⟨k1, v1⟩ := kv1
      obtain ⟨k2, v2⟩ := kv2
      cases v1 with
      | keyBlob kb => simp [isSnapB] at hs1
      | snap d1 =>
        cases v2 with
        | keyBlob kb => simp [isSnapB] at hs2
        | snap d2 =>
          obtain ⟨dd1, hp1, hk1, he1⟩ := entryWF_snap hw1
          obtain ⟨dd2, hp2, hk2, he2⟩ := entryWF_snap hw2
          replace hblt : bytesLtB k1 k2 = true := hblt
          rw [hk1, hk2] at hblt
          have hcal := calLt_of_encode_lt (parseDate_validB hp1)
            (parseDate_validB hp2) he2 hblt
          exact dateLtB_intro hp1 hp2 hcal
  · intro hex
    obtain ⟨kv, hmem, hrange, hbad⟩ := hex
    rw [hgr]
    exact rangeDecode_err _ ⟨kv, List.mem_filter.mpr ⟨hmem, hrange⟩, hbad⟩

/-- C8 witness: Scenario E — a store holding snapshots for 1999-01-04,
2003-01-04 and 2012-01-04 (plus the current-pointer entry, which lies
outside the scanned key range) scanned from 1999-01-04 to 2012-01-04. -/
theorem c8_range_scan_spec_witness :
    ((∀ kv ∈ ([(encodeDate ⟨1999, 1, 4⟩, StoreVal.snap ⟨"1999-01-04", []⟩),
        (encodeDate ⟨2003, 1, 4⟩, StoreVal.snap ⟨"2003-01-04", []⟩),
        (encodeDate ⟨2012, 1, 4⟩, StoreVal.snap ⟨"2012-01-04", []⟩),
        (currentKeyBytes, StoreVal.keyBlob (encodeDate ⟨2012, 1, 4⟩))] : Store),
        inRangeB (encodeDate ⟨1999, 1, 4⟩) (encodeDate ⟨2012, 1, 4⟩) kv.1 = true →
        isSnapB kv.2 = true) →
      ∃ l, get_range_rates ⟨1999, 1, 4⟩ ⟨2012, 1, 4⟩
          [(encodeDate ⟨1999, 1, 4⟩, StoreVal.snap ⟨"1999-01-04", []⟩),
           (encodeDate ⟨2003, 1, 4⟩, StoreVal.snap ⟨"2003-01-04", []⟩),
           (encodeDate ⟨2012, 1, 4⟩, StoreVal.snap ⟨"2012-01-04", []⟩),
           (currentKeyBytes, StoreVal.keyBlob (encodeDate ⟨2012, 1, 4⟩))] = .ok l ∧
        (∀ d, d ∈ l ↔ ∃ k, ((k, StoreVal.snap d) ∈
          ([(encodeDate ⟨1999, 1, 4⟩, StoreVal.snap ⟨"1999-01-04", []⟩),
            (encodeDate ⟨2003, 1, 4⟩, StoreVal.snap ⟨"2003-01-04", []⟩),
            (encodeDate ⟨2012, 1, 4⟩, StoreVal.snap ⟨"2012-01-04", []⟩),
            (currentKeyBytes, StoreVal.keyBlob (encodeDate ⟨2012, 1, 4⟩))] : Store) ∧
          inRangeB (encodeDate ⟨1999, 1, 4⟩) (encodeDate ⟨2012, 1, 4⟩) k = true)) ∧
        l.Pairwise (fun a b => dateLtB a b = true)) ∧
    ((∃ kv ∈ ([(encodeDate ⟨1999, 1, 4⟩, StoreVal.snap ⟨"1999-01-04", []⟩),
        (encodeDate ⟨2003, 1, 4⟩, StoreVal.snap ⟨"2003-01-04", []⟩),
        (encodeDate ⟨2012, 1, 4⟩, StoreVal.snap ⟨"2012-01-04", []⟩),
        (currentKeyBytes, StoreVal.keyBlob (encodeDate ⟨2012, 1, 4⟩))] : Store),
        inRangeB (encodeDate ⟨1999, 1, 4⟩) (encodeDate ⟨2012, 1, 4⟩) kv.1 = true ∧
        isSnapB kv.2 = false) →
      get_range_rates ⟨1999, 1, 4⟩ ⟨2012, 1, 4⟩
        [(encodeDate ⟨1999, 1, 4⟩, StoreVal.snap ⟨"1999-01-04", []⟩),
         (encodeDate ⟨2003, 1, 4⟩, StoreVal.snap ⟨"2003-01-04", []⟩),
         (encodeDate ⟨2012, 1, 4⟩, StoreVal.snap ⟨"2012-01-04", []⟩),
         (currentKeyBytes, StoreVal.keyBlob (encodeDate ⟨2012, 1, 4⟩))] =
        .err .decode) :=
  c8_range_scan_spec ⟨1999, 1, 4⟩ ⟨2012, 1, 4⟩
    [(encodeDate ⟨1999, 1, 4⟩, StoreVal.snap ⟨"1999-01-04", []⟩),
     (encodeDate ⟨2003, 1, 4⟩, StoreVal.snap ⟨"2003-01-04", []⟩),
     (encodeDate ⟨2012, 1, 4⟩, StoreVal.snap ⟨"2012-01-04", []⟩),
     (currentKeyBytes, StoreVal.keyBlob (encodeDate ⟨2012, 1, 4⟩))]
    (by decide) (by decide)

/-- C10: `Db::init` (src/db.rs lines 30–37) chooses between opening and
bootstrapping solely on path existence: with an existing path the store
is returned exactly as stored — even a completely empty store, whose
`current` pointer lookup then fails — and bootstrap runs exactly when the
path does not exist (with a nonempty feed it actually writes entries, so
the two branches differ). -/
theorem c10_init_path_existence :
    (∀ (stored : Store) (hist : List Date),
      init true stored hist = (.ok (), stored)) ∧
    (∀ (stored : Store) (hist : List Date),
      init false stored hist = bootstrap_new hist) ∧
    init true [] [⟨"2020-01-02", []⟩] = (.ok (), []) ∧
    get_current_rates [] = .err .noCurrent ∧
    (bootstrap_new [⟨"2020-01-02", []⟩]).2 ≠ [] := by
  refine ⟨fun stored hist => rfl, fun stored hist => rfl, by decide, by decide,
    by decide⟩

end Currencies
